import Mathlib

/-!
RTP/AAC encoder of gortsplib (`pkg/rtpaac/encoder.go`)

A shallow embedding of the encoder and theorems about it.

Conventions of the embedding.

* A Go `[]byte` is `Bytes = Option (List Nat)`: `none` is the nil slice, `some l` a non-nil slice
  holding the bytes `l`.  The only place where the source tells nil from empty is
  `addAU != nil` in `lenAggregated` and `batch != nil` in `Encode`.
* A run-time panic is the error side of `Except Panic`; the Go result pair
  `([]*rtp.Packet, error)` is the pair `(List Packet, Option GoError)`, and the encoder, which the
  Go methods mutate through their pointer receiver, is threaded explicitly as third component.
* `uint8`, `uint16`, `uint32` and `uint64` values are natural numbers reduced modulo `2^w` wherever
  the source converts or increments.  A `time.Duration` is a 64-bit signed count of nanoseconds:
  the arithmetic that `Encode` does on the presentation time wraps to 64 bits (`wrapInt64`,
  `advancePTS`).  Values of type `int` hold slice lengths and configuration values and are modelled
  by `Int` without wrap-around.  Integer division is Go's truncated division (`Int.tdiv`,
  `Int.tmod`).
* `float64` is modelled exactly (`F64`, round to nearest, ties to even, 53-bit significand) for
  the finite values that `time.Duration.Seconds` and its product with the sample rate can take.
* `bitio.Writer` and `bytes.Buffer` are external libraries; they are modelled by their documented
  behaviour (`BitWriter`, `copyAt`).
-/

namespace rtpaac

/-! ## Run-time panics, byte slices -/

/-- The run-time panics the encoder can raise. -/
inductive Panic where
  | nilDereference
  | divideByZero
  | makeNegativeLen
  | outOfRange
  deriving DecidableEq, Repr

/-- The Go `error` interface value; the encoder never builds one. -/
structure GoError where
  code : Nat
  deriving DecidableEq, Repr

/-- A Go byte slice; `none` is nil. -/
abbrev Bytes := Option (List Nat)

/-- Go `len(s)`. -/
def blen (s : Bytes) : Nat :=
  match s with
  | none => 0
  | some l => l.length

/-- The bytes held by a slice (none for nil). -/
def bdata (s : Bytes) : List Nat :=
  match s with
  | none => []
  | some l => l

instance instDecidableEqExcept {ε α : Type} [DecidableEq ε] [DecidableEq α] :
    DecidableEq (Except ε α) := fun a b =>
  match a, b with
  | Except.ok x, Except.ok y =>
    if h : x = y then isTrue (by rw [h]) else isFalse (fun h2 => h (Except.ok.inj h2))
  | Except.error x, Except.error y =>
    if h : x = y then isTrue (by rw [h]) else isFalse (fun h2 => h (Except.error.inj h2))
  | Except.ok _, Except.error _ => isFalse (fun h => by cases h)
  | Except.error _, Except.ok _ => isFalse (fun h => by cases h)

/-- Dereference of a Go pointer: nil panics. -/
def deref {α : Type} : Option α → Except Panic α
  | some v => Except.ok v
  | none => Except.error Panic.nilDereference

/-- Go `copy(dst[pos:], src)` for `pos ≤ len(dst)`: the first `min (len dst - pos) (len src)` bytes
of `src` overwrite `dst` from offset `pos`.  It is also the effect on `dst` of writing `src` to a
`bytes.Buffer` created over `dst[pos:pos]`: bytes are stored in place while the capacity lasts,
later bytes go to a reallocated buffer and never reach `dst`. -/
def copyAt (dst : List Nat) (pos : Nat) (src : List Nat) : List Nat :=
  dst.take pos ++ src.take (dst.length - pos) ++ dst.drop (pos + src.length)

/-- Go `binary.BigEndian.PutUint16(b, v)` for `len(b) ≥ 2`. -/
def putUint16 (b : List Nat) (v : Nat) : List Nat :=
  copyAt b 0 [v / 256 % 256, v % 256]

/-! ## bitio.Writer -/

/-- State of a `bitio.Writer`: bytes already handed to the underlying writer, the cache byte and
the number of bits in the cache. -/
structure BitWriter where
  out : List Nat
  cache : Nat
  bits : Nat
  deriving DecidableEq, Repr

/-- A fresh writer, `bitio.NewWriter`. -/
def BitWriter.new : BitWriter := ⟨[], 0, 0⟩

/-- Write one bit (`b` is 0 or 1), most significant bit of the byte first. -/
def BitWriter.writeBit (w : BitWriter) (b : Nat) : BitWriter :=
  let cache := w.cache + b * 2 ^ (7 - w.bits)
  if w.bits + 1 = 8 then ⟨w.out ++ [cache], 0, 0⟩ else ⟨w.out, cache, w.bits + 1⟩

/-- The call `WriteBits(r, n)`: writes out the `n` lowest bits of `r`, highest of them first. -/
def BitWriter.writeBits (w : BitWriter) (r : Nat) : Nat → BitWriter
  | 0 => w
  | n + 1 => (w.writeBit (r / 2 ^ n % 2)).writeBits r n

/-- The call `Close()`: the cached bits, if any, are written out as one byte padded with zero
bits; returns all bytes written. -/
def BitWriter.close (w : BitWriter) : List Nat :=
  if 0 < w.bits then w.out ++ [w.cache] else w.out

/-! ## float64 -/

/-- A finite float64: the value is `(-1)^neg * mant * 2^exp`; `mant` is 0 or in `[2^52, 2^53)`. -/
structure F64 where
  neg : Bool
  mant : Nat
  exp : Int
  deriving DecidableEq, Repr

/-- Number of binary digits of `n`; the first argument bounds the recursion. -/
def bitLen : Nat → Nat → Nat
  | 0, _ => 0
  | fuel + 1, n => if n = 0 then 0 else bitLen fuel (n / 2) + 1

/-- The float64 nearest to `± n / d` (round to nearest, ties to even).  The magnitudes that occur
here are far from the overflow and subnormal ranges, which are not modelled. -/
def F64.round (neg : Bool) (n d : Nat) : F64 :=
  if n = 0 ∨ d = 0 then ⟨neg, 0, 0⟩ else
  let e0 : Int := (bitLen n n : Int) - (bitLen d d : Int) - 53
  let f0 := (n * 2 ^ (-e0).toNat) / (d * 2 ^ e0.toNat)
  let e : Int := if f0 < 2 ^ 53 then e0 else e0 + 1
  let num := n * 2 ^ (-e).toNat
  let den := d * 2 ^ e.toNat
  let f := num / den
  let r := num % den
  let m := if 2 * r < den then f else if den < 2 * r then f + 1 else if f % 2 = 0 then f else f + 1
  if m = 2 ^ 53 then ⟨neg, 2 ^ 52, e + 1⟩ else ⟨neg, m, e⟩

/-- Go `float64(i)` for a 64-bit integer. -/
def F64.ofInt (i : Int) : F64 := F64.round (decide (i < 0)) i.natAbs 1

/-- Sum of two float64 values. -/
def F64.add (a b : F64) : F64 :=
  let e := min a.exp b.exp
  let ia : Int := (if a.neg then -1 else 1) * (a.mant * 2 ^ (a.exp - e).toNat : Nat)
  let ib : Int := (if b.neg then -1 else 1) * (b.mant * 2 ^ (b.exp - e).toNat : Nat)
  let s := ia + ib
  F64.round (decide (s < 0)) (s.natAbs * 2 ^ e.toNat) (2 ^ (-e).toNat)

/-- Product of two float64 values. -/
def F64.mul (a b : F64) : F64 :=
  let e := a.exp + b.exp
  F64.round (a.neg != b.neg) (a.mant * b.mant * 2 ^ e.toNat) (2 ^ (-e).toNat)

/-- Quotient of two float64 values, the divisor not zero. -/
def F64.div (a b : F64) : F64 :=
  let e := a.exp - b.exp
  F64.round (a.neg != b.neg) (a.mant * 2 ^ e.toNat) (b.mant * 2 ^ (-e).toNat)

/-- Go `uint32(f)`: the fraction is discarded (truncation toward zero).  For a value outside
`[0, 2^32)` Go leaves the result to the implementation; the model takes the truncated integer
modulo `2^32`, which is what amd64 does. -/
def F64.toUint32 (a : F64) : Nat :=
  let t : Int := ((a.mant * 2 ^ a.exp.toNat / 2 ^ (-a.exp).toNat : Nat) : Int)
  ((if a.neg then -t else t) % 4294967296).toNat

/-- Go `time.Duration.Seconds`: `float64(sec) + float64(nsec)/1e9` with `sec = d / Second` and
`nsec = d % Second`. -/
def Seconds (d : Int) : F64 :=
  let sec := d.tdiv 1000000000
  let nsec := d.tmod 1000000000
  F64.add (F64.ofInt sec) (F64.div (F64.ofInt nsec) (F64.ofInt 1000000000))

/-! ## Packets and the encoder -/

/-- Modelled from the spec: the constant `rtpVersion`, declared in a file of the package that is
not part of the sources at hand; the spec gives `version=2`. -/
def rtpVersion : Nat := 2

/-- The fields of `rtp.Packet` that the encoder fills. -/
structure Packet where
  Version : Nat
  PayloadType : Nat
  SequenceNumber : Nat
  Timestamp : Nat
  SSRC : Nat
  Marker : Bool
  Payload : List Nat
  deriving DecidableEq, Repr

/-- The struct `Encoder`; a pointer field is an `Option`. -/
structure Encoder where
  PayloadType : Nat
  SSRC : Option Nat
  InitialSequenceNumber : Option Nat
  InitialTimestamp : Option Nat
  PayloadMaxSize : Int
  SampleRate : Int
  SizeLength : Option Int
  IndexLength : Option Int
  IndexDeltaLength : Option Int
  sequenceNumber : Nat
  deriving DecidableEq, Repr

/-- What an encoder method hands back when it does not panic: packets, error, encoder. -/
abbrev Ret := List Packet × Option GoError × Encoder

/-- The method `Init`; `rSSRC`, `rSeq`, `rTs` are the values `randUint32` returns at its three
call sites.  Each `if` of the source assigns one field of its own, so the method is written
field by field; the last statement copies the initial sequence number, by then non-nil, into
the running counter. -/
def Init (e : Encoder) (rSSRC rSeq rTs : Nat) : Encoder :=
  { PayloadType := e.PayloadType
    SSRC := if e.SSRC = none then some (rSSRC % 4294967296) else e.SSRC
    InitialSequenceNumber :=
      if e.InitialSequenceNumber = none then some (rSeq % 4294967296 % 65536)
      else e.InitialSequenceNumber
    InitialTimestamp :=
      if e.InitialTimestamp = none then some (rTs % 4294967296) else e.InitialTimestamp
    PayloadMaxSize := if e.PayloadMaxSize = 0 then 1460 else e.PayloadMaxSize
    SampleRate := e.SampleRate
    SizeLength := if e.SizeLength = none then some 13 else e.SizeLength
    IndexLength := if e.IndexLength = none then some 3 else e.IndexLength
    IndexDeltaLength := if e.IndexDeltaLength = none then some 3 else e.IndexDeltaLength
    sequenceNumber :=
      match e.InitialSequenceNumber with
      | some v => v
      | none => rSeq % 4294967296 % 65536 }

/-- The method `encodeTimestamp`. -/
def encodeTimestamp (e : Encoder) (ts : Int) : Except Panic Nat := do
  let it ← deref e.InitialTimestamp
  pure ((it + F64.toUint32 (F64.mul (Seconds ts) (F64.ofInt e.SampleRate))) % 4294967296)

/-- Bytes that `lenAggregated` counts for the AU-header of the access unit at index `i`. -/
def auHeaderBytes (e : Encoder) (i : Nat) : Except Panic Int := do
  let sl ← deref e.SizeLength
  if i = 0 then do
    let il ← deref e.IndexLength
    pure ((sl + il).tdiv 8)
  else do
    let idl ← deref e.IndexDeltaLength
    pure ((sl + idl).tdiv 8)

/-- The loop of `lenAggregated` over `aus`, from running total `ret` and index `i`. -/
def lenAggregatedLoop (e : Encoder) : List Bytes → Int → Nat → Except Panic (Int × Nat)
  | [], ret, i => pure (ret, i)
  | au :: rest, ret, i => do
    let h ← auHeaderBytes e i
    lenAggregatedLoop e rest (ret + h + blen au) (i + 1)

/-- The method `lenAggregated`. -/
def lenAggregated (e : Encoder) (aus : List Bytes) (addAU : Bytes) : Except Panic Int := do
  let r ← lenAggregatedLoop e aus 2 0
  match addAU with
  | none => pure r.1
  | some a => do
    let h ← auHeaderBytes e r.2
    pure (r.1 + h + a.length)

/-- The AU-headers loop of `writeAggregated`: bit writer and `written` after the headers of
`aus`, the first of them at index `i`. -/
def aggHeaderLoop (e : Encoder) :
    List Bytes → Nat → BitWriter → Int → Except Panic (BitWriter × Int)
  | [], _, bw, written => pure (bw, written)
  | au :: rest, i, bw, written => do
    let sl ← deref e.SizeLength
    if i = 0 then do
      let il ← deref e.IndexLength
      aggHeaderLoop e rest (i + 1)
        ((bw.writeBits (blen au % 2 ^ 64) (sl % 256).toNat).writeBits 0 (il % 256).toNat)
        (written + sl + il)
    else do
      let idl ← deref e.IndexDeltaLength
      aggHeaderLoop e rest (i + 1)
        ((bw.writeBits (blen au % 2 ^ 64) (sl % 256).toNat).writeBits 0 (idl % 256).toNat)
        (written + sl + idl)

/-- The AUs loop of `writeAggregated`: `copy(payload[pos:], au)` for each access unit. -/
def aggCopyLoop : List Bytes → List Nat → Int → Except Panic (List Nat)
  | [], payload, _ => pure payload
  | au :: rest, payload, pos =>
    if pos < 0 ∨ (payload.length : Int) < pos then Except.error Panic.outOfRange
    else aggCopyLoop rest (copyAt payload pos.toNat (bdata au))
      (pos + min ((payload.length : Int) - pos) (blen au))

/-- The method `writeAggregated`.  `make` panics on a negative length, `payload[2:2]` on a
length below 2. -/
def writeAggregated (e : Encoder) (aus : List Bytes) (firstPTS : Int) : Except Panic Ret := do
  let n ← lenAggregated e aus none
  if n < 0 then Except.error Panic.makeNegativeLen
  else if n < 2 then Except.error Panic.outOfRange
  else do
    let hw ← aggHeaderLoop e aus 0 BitWriter.new 0
    let payload ← aggCopyLoop aus
      (putUint16 (copyAt (List.replicate n.toNat 0) 2 hw.1.close) (hw.2 % 65536).toNat)
      (2 + hw.2.tdiv 8)
    let ts ← encodeTimestamp e firstPTS
    let ssrc ← deref e.SSRC
    pure ([{ Version := rtpVersion, PayloadType := e.PayloadType,
             SequenceNumber := e.sequenceNumber, Timestamp := ts, SSRC := ssrc, Marker := true,
             Payload := payload }], none,
          { e with sequenceNumber := (e.sequenceNumber + 1) % 65536 })

/-- The payload that one iteration of the loop of `writeFragmented` builds for a chunk of `le`
bytes, the rest of the access unit being `au`: `make` (panics on a negative length),
`PutUint16` (panics on a length below 2), the AU-header through the bit writer, and
`copy(byts[2+auHeaderLen/8:], au[:le])`. -/
def fragPayload (e : Encoder) (auHeaderLen le : Int) (au : List Nat) : Except Panic (List Nat) :=
  let n := 2 + auHeaderLen.tdiv 8 + le
  if n < 0 then Except.error Panic.makeNegativeLen
  else if n < 2 then Except.error Panic.outOfRange
  else do
    let sl ← deref e.SizeLength
    let il ← deref e.IndexLength
    let bw := (BitWriter.new.writeBits (le % 2 ^ 64).toNat (sl % 256).toNat).writeBits 0
      (il % 256).toNat
    let off := 2 + auHeaderLen.tdiv 8
    if off < 0 ∨ n < off then Except.error Panic.outOfRange
    else if le < 0 ∨ (au.length : Int) < le then Except.error Panic.outOfRange
    else pure (copyAt (copyAt (putUint16 (List.replicate n.toNat 0) (auHeaderLen % 65536).toNat)
      2 bw.close) off.toNat (au.take le.toNat))

/-- The loop `for i := range ret` of `writeFragmented`, from index `i` with `todo` iterations
left, `au` the part of the access unit not yet consumed. -/
def fragLoop (auHeaderLen auMaxSize lastPacketSize packetCount : Int) (encPTS : Nat) :
    Nat → Nat → List Nat → Encoder → Except Panic (List Packet × Encoder)
  | 0, _, _, e => pure ([], e)
  | todo + 1, i, au, e => do
    let le : Int := if (i : Int) ≠ packetCount - 1 then auMaxSize else lastPacketSize
    let byts ← fragPayload e auHeaderLen le au
    let ssrc ← deref e.SSRC
    let r ← fragLoop auHeaderLen auMaxSize lastPacketSize packetCount encPTS todo (i + 1)
      (au.drop le.toNat) { e with sequenceNumber := (e.sequenceNumber + 1) % 65536 }
    pure ({ Version := rtpVersion, PayloadType := e.PayloadType,
            SequenceNumber := e.sequenceNumber, Timestamp := encPTS, SSRC := ssrc,
            Marker := decide ((i : Int) = packetCount - 1), Payload := byts } :: r.1, r.2)

/-- The method `writeFragmented`.  The slice expression `au[:le]` is checked against the length
of `au`; `le` never exceeds it, so the capacity of `au` plays no part. -/
def writeFragmented (e : Encoder) (au : Bytes) (pts : Int) : Except Panic Ret := do
  let sl ← deref e.SizeLength
  let il ← deref e.IndexLength
  let auMaxSize := e.PayloadMaxSize - 2 - (sl + il).tdiv 8
  if auMaxSize = 0 then Except.error Panic.divideByZero
  else
    let lastPacketSize := (blen au : Int).tmod auMaxSize
    let packetCount :=
      if 0 < lastPacketSize then (blen au : Int).tdiv auMaxSize + 1
      else (blen au : Int).tdiv auMaxSize
    if packetCount < 0 then Except.error Panic.makeNegativeLen
    else do
      let encPTS ← encodeTimestamp e pts
      let r ← fragLoop (sl + il) auMaxSize lastPacketSize packetCount encPTS
        packetCount.toNat 0 (bdata au) e
      pure (r.1, none, r.2)

/-- The method `writeBatch`. -/
def writeBatch (e : Encoder) (aus : List Bytes) (firstPTS : Int) : Except Panic Ret :=
  match aus with
  | [au] =>
    if (blen au : Int) < e.PayloadMaxSize then writeAggregated e aus firstPTS
    else writeFragmented e au firstPTS
  | _ => writeAggregated e aus firstPTS

/-- Go `append(batch, au)` on a possibly nil slice of access units. -/
def appendAU (batch : Option (List Bytes)) (au : Bytes) : Option (List Bytes) :=
  match batch with
  | none => some [au]
  | some b => some (b ++ [au])

/-- The access units of a possibly nil batch. -/
def batchList (batch : Option (List Bytes)) : List Bytes :=
  match batch with
  | none => []
  | some b => b

/-- The statements of `Encode` that follow a call of `writeBatch`: on an error `return nil, err`,
else append the packets to `rets` and go on with `k`. -/
def afterWrite (rets : List Packet) (w : Ret) (k : List Packet → Encoder → Except Panic Ret) :
    Except Panic Ret :=
  match w.2.1 with
  | some er => pure ([], some er, w.2.2)
  | none => k (rets ++ w.1) w.2.2

/-- The value of a 64-bit signed integer (`int64`, `time.Duration`) after an operation whose
exact result is `x`: the low 64 bits of `x` in two's complement. -/
def wrapInt64 (x : Int) : Int :=
  (x + 9223372036854775808) % 18446744073709551616 - 9223372036854775808

/-- The statement
`pts += time.Duration(len(batch)) * 1000 * time.Second / time.Duration(e.SampleRate)` of `Encode`
for a batch of `k` access units and a sample rate that is not zero: the new value of `pts`.  The
two products, the quotient and the sum are `time.Duration` operations, evaluated from left to
right, each wrapping to 64 bits. -/
def advancePTS (pts : Int) (k : Nat) (sampleRate : Int) : Int :=
  wrapInt64 (pts +
    wrapInt64 ((wrapInt64 (wrapInt64 ((k : Int) * 1000) * 1000000000)).tdiv sampleRate))

/-- The body of `Encode` from the loop `for _, au := range aus` on: the access units still to
visit, then the local variables `rets`, `batch`, `pts`, and the encoder.  When the access units
are exhausted the statements after the loop run (write last batch).  The division of
`time.Duration` values panics on a zero `SampleRate`. -/
def encodeLoop :
    List Bytes → List Packet → Option (List Bytes) → Int → Encoder → Except Panic Ret
  | [], rets, batch, pts, e => do
    let w ← writeBatch e (batchList batch) pts
    afterWrite rets w (fun rets e => pure (rets, none, e))
  | au :: rest, rets, batch, pts, e => do
    let l ← lenAggregated e (batchList batch) au
    if l ≤ e.PayloadMaxSize then
      encodeLoop rest rets (appendAU batch au) pts e
    else
      match batch with
      | some b => do
        let w ← writeBatch e b pts
        afterWrite rets w (fun rets e =>
          if e.SampleRate = 0 then Except.error Panic.divideByZero
          else encodeLoop rest rets (some [au]) (advancePTS pts b.length e.SampleRate) e)
      | none => encodeLoop rest rets (some [au]) pts e

/-- The method `Encode`. -/
def Encode (e : Encoder) (aus : List Bytes) (firstPTS : Int) : Except Panic Ret :=
  encodeLoop aus [] none firstPTS e

/-! ## Initialised encoders -/

/-- An encoder on which `Init` has run: pointer fields non-nil, `PayloadMaxSize` not zero, and
every field within the range of its Go type. -/
def Initialised (e : Encoder) : Prop :=
  e.PayloadType < 256 ∧ e.sequenceNumber < 65536 ∧ e.PayloadMaxSize ≠ 0 ∧
  (∃ v, e.SSRC = some v ∧ v < 4294967296) ∧
  (∃ v, e.InitialSequenceNumber = some v ∧ v < 65536) ∧
  (∃ v, e.InitialTimestamp = some v ∧ v < 4294967296) ∧
  (∃ v, e.SizeLength = some v) ∧ (∃ v, e.IndexLength = some v) ∧
  (∃ v, e.IndexDeltaLength = some v)

/-- The default AU-header field lengths 13/3/3. -/
def DefaultLengths (e : Encoder) : Prop :=
  e.SizeLength = some 13 ∧ e.IndexLength = some 3 ∧ e.IndexDeltaLength = some 3

/-- An encoder as the tests of the package configure it, with a payload limit of 5 bytes and a
sample rate of 1000 Hz. -/
def smallEncoder : Encoder :=
  Init { PayloadType := 96, SSRC := some 2646308882, InitialSequenceNumber := some 17645,
         InitialTimestamp := some 2289526357, PayloadMaxSize := 5, SampleRate := 1000,
         SizeLength := none, IndexLength := none, IndexDeltaLength := none,
         sequenceNumber := 0 } 0 0 0

/-- An encoder that the caller leaves at its defaults, apart from payload type and sample rate:
`Init` sets the payload limit to 1460 and the lengths to 13/3/3. -/
def defaultEncoder : Encoder :=
  Init { PayloadType := 96, SSRC := none, InitialSequenceNumber := none,
         InitialTimestamp := none, PayloadMaxSize := 0, SampleRate := 48000,
         SizeLength := none, IndexLength := none, IndexDeltaLength := none,
         sequenceNumber := 0 } 2646308882 17645 2289526357

/-! ## Predicates used in the statements -/

/-- The header of the packet at position `j` of a batch written by encoder `e`: the fields taken
from the encoder, the timestamp `ts`, and the Marker flag `mk j`. -/
def HeaderAt (e : Encoder) (ts : Nat) (mk : Nat → Bool) (j : Nat) (p : Packet) : Prop :=
  p.Version = rtpVersion ∧ p.PayloadType = e.PayloadType ∧ some p.SSRC = e.SSRC ∧
  p.Timestamp = ts ∧ p.Marker = mk j ∧
  (e.sequenceNumber < 65536 → p.SequenceNumber = (e.sequenceNumber + j) % 65536)

/-- The encoder `e2` is `e1` with the running counter advanced by `n` packets. -/
def Advanced (e1 e2 : Encoder) (n : Nat) : Prop :=
  e2 = { e1 with sequenceNumber := e2.sequenceNumber } ∧
  (e1.sequenceNumber < 65536 → e2.sequenceNumber = (e1.sequenceNumber + n) % 65536)

/-- Within a group of packets the Marker flag is set on the last packet and on no other. -/
def MarkerOnLastOnly (g : List Packet) : Prop :=
  ∀ j p, g[j]? = some p → p.Marker = decide (j + 1 = g.length)

/-! ## Example inputs -/

/-- Two access units of one byte each; with a payload limit of 5 they do not fit into one
aggregated packet (2 + 2 + 1 + 2 + 1 = 8 bytes). -/
def twoUnits : List Bytes := [some [1], some [2]]

/-- What `Encode smallEncoder twoUnits 0` returns. -/
def twoUnitsRet : Ret :=
  ([{ Version := 2, PayloadType := 96, SequenceNumber := 17645, Timestamp := 2289526357,
      SSRC := 2646308882, Marker := true, Payload := [0, 16, 0, 8, 1] },
    { Version := 2, PayloadType := 96, SequenceNumber := 17646, Timestamp := 2289527357,
      SSRC := 2646308882, Marker := true, Payload := [0, 16, 0, 8, 2] }],
   none, { smallEncoder with sequenceNumber := 17647 })

/-- An access unit of 5 bytes, as long as the payload limit of `smallEncoder`. -/
def fiveBytes : Bytes := some [1, 2, 3, 4, 5]

/-- The fragment that `smallEncoder` makes at position `i` with payload `payload`. -/
def smallFragment (i : Nat) (marker : Bool) (payload : List Nat) : Packet :=
  { Version := 2, PayloadType := 96, SequenceNumber := 17645 + i, Timestamp := 2289526357,
    SSRC := 2646308882, Marker := marker, Payload := payload }

/-- What `writeBatch smallEncoder [fiveBytes] 0` returns. -/
def fiveBytesRet : Ret :=
  ([smallFragment 0 false [0, 16, 0, 8, 1], smallFragment 1 false [0, 16, 0, 8, 2],
    smallFragment 2 false [0, 16, 0, 8, 3], smallFragment 3 false [0, 16, 0, 8, 4],
    smallFragment 4 true [0, 16, 0, 0]],
   none, { smallEncoder with sequenceNumber := 17650 })

/-- An access unit of 5 bytes, which `smallEncoder` fragments, and one of a single byte. -/
def mixedUnits : List Bytes := [fiveBytes, some [9]]

/-- What `Encode smallEncoder mixedUnits 0` returns: the five fragments of the first access unit,
then the aggregated packet of the second, stamped one second later. -/
def mixedRet : Ret :=
  ([smallFragment 0 false [0, 16, 0, 8, 1], smallFragment 1 false [0, 16, 0, 8, 2],
    smallFragment 2 false [0, 16, 0, 8, 3], smallFragment 3 false [0, 16, 0, 8, 4],
    smallFragment 4 true [0, 16, 0, 0],
    { Version := 2, PayloadType := 96, SequenceNumber := 17650, Timestamp := 2289527357,
      SSRC := 2646308882, Marker := true, Payload := [0, 16, 0, 8, 9] }],
   none, { smallEncoder with sequenceNumber := 17651 })

/-- The two bytes of a 16-bit value, most significant first. -/
def be16 (v : Nat) : List Nat := [v / 256, v % 256]

/-- Sum of the lengths of the access units of a batch. -/
def totalLen : List Bytes → Nat
  | [] => 0
  | a :: rest => blen a + totalLen rest

/-- The AU-headers of a batch under the default lengths: per access unit the 16-bit value
`len * 8` (13-bit AU-size, 3 zero bits), big-endian. -/
def auHeaders : List Bytes → List Nat
  | [] => []
  | a :: rest => be16 (blen a * 8) ++ auHeaders rest

/-- The bytes of the access units of a batch, concatenated in order. -/
def auData : List Bytes → List Nat
  | [] => []
  | a :: rest => bdata a ++ auData rest

/-- The float64 `x` is the natural number `N`, exactly. -/
def F64.IsNat (x : F64) (N : Nat) : Prop :=
  x.neg = false ∧ x.exp ≤ 0 ∧ x.mant = N * 2 ^ (-x.exp).toNat

/-- The rational number that a float64 stands for: `(-1)^neg * mant * 2^exp`. -/
def F64.toRat (a : F64) : ℚ := (if a.neg then -1 else 1) * ((a.mant : ℚ) * (2 : ℚ) ^ a.exp)

/-- A rational number with its fraction discarded (rounding toward zero). -/
def truncRat (q : ℚ) : Int := if 0 ≤ q then Int.floor q else Int.ceil q

/-- The quotient `n / d` rounded to the nearest integer (a tie goes up). -/
def roundNearest (n d : Nat) : Nat := (2 * n + d) / (2 * d)

/-- The timestamp as the specification words it, for a presentation time of `ptsNs` ≥ 0
nanoseconds: `(InitialTimestamp + round(pts in seconds * SampleRate)) mod 2^32`. -/
def specTimestamp (initialTimestamp sampleRate ptsNs : Nat) : Nat :=
  (initialTimestamp + roundNearest (ptsNs * sampleRate) 1000000000) % 4294967296

/-- An encoder initialised without a sample rate (`SampleRate` left at 0). -/
def zeroRateEncoder : Encoder :=
  Init { PayloadType := 96, SSRC := some 2646308882, InitialSequenceNumber := some 17645,
         InitialTimestamp := some 2289526357, PayloadMaxSize := 5, SampleRate := 0,
         SizeLength := none, IndexLength := none, IndexDeltaLength := none,
         sequenceNumber := 0 } 0 0 0

/-- An encoder with the default lengths and the payload limit `pms`. -/
def limitEncoder (pms : Int) : Encoder :=
  Init { PayloadType := 96, SSRC := some 2646308882, InitialSequenceNumber := some 17645,
         InitialTimestamp := some 2289526357, PayloadMaxSize := pms, SampleRate := 1000,
         SizeLength := none, IndexLength := none, IndexDeltaLength := none,
         sequenceNumber := 0 } 0 0 0

/-- An encoder whose AU-header fields take 12 + 3 bits, not a whole number of bytes. -/
def oddLengthEncoder : Encoder :=
  Init { PayloadType := 96, SSRC := some 2646308882, InitialSequenceNumber := some 17645,
         InitialTimestamp := some 2289526357, PayloadMaxSize := 0, SampleRate := 48000,
         SizeLength := some 12, IndexLength := some 3, IndexDeltaLength := some 3,
         sequenceNumber := 0 } 0 0 0

/-- An encoder configuration with every optional field absent. -/
def blankEncoder : Encoder :=
  { PayloadType := 97, SSRC := none, InitialSequenceNumber := none, InitialTimestamp := none,
    PayloadMaxSize := 0, SampleRate := 44100, SizeLength := none, IndexLength := none,
    IndexDeltaLength := none, sequenceNumber := 0 }

/-- The AU-headers of a batch under the default lengths, for access units of any length: the
13-bit AU-size field holds the length modulo `2^13`. -/
def auHeadersMod : List Bytes → List Nat
  | [] => []
  | a :: rest => be16 (blen a % 8192 * 8) ++ auHeadersMod rest

/-- An encoder with the default lengths, a non-nil SSRC and initial timestamp, and a payload
limit of at least 5: what the writers need to run without a fault. -/
def Ready (e : Encoder) : Prop :=
  DefaultLengths e ∧ (∃ ssrc, e.SSRC = some ssrc) ∧ (∃ it, e.InitialTimestamp = some it) ∧
  5 ≤ e.PayloadMaxSize

/-- The number of AU-header bits of a batch of `k` access units: `sizeLength + indexLength` for
the first, `sizeLength + indexDeltaLength` for each further one. -/
def headerBits (sizeLength indexLength indexDeltaLength k : Nat) : Nat :=
  match k with
  | 0 => 0
  | k + 1 => (sizeLength + indexLength) + k * (sizeLength + indexDeltaLength)

/-- The projected packet length as the specification words it, for access units of the lengths
`lens`: `2 + ceil(header_bits / 8) + sum of the AU lengths`. -/
def specLenAggregated (sizeLength indexLength indexDeltaLength : Nat) (lens : List Nat) : Nat :=
  2 + (headerBits sizeLength indexLength indexDeltaLength lens.length + 7) / 8 + lens.sum

/-- The calls of `writeBatch` that `Encode` makes, in order, each as the batch and the
presentation time handed to it: the body of `Encode` (see `encodeLoop`) with the calls recorded
in place of being made.  `Encode` is the run of these calls, see `encodeLoop_calls`. -/
def batchCalls (e : Encoder) :
    List Bytes → Option (List Bytes) → Int → Except Panic (List (List Bytes × Int))
  | [], batch, pts => pure [(batchList batch, pts)]
  | au :: rest, batch, pts => do
    let l ← lenAggregated e (batchList batch) au
    if l ≤ e.PayloadMaxSize then
      batchCalls e rest (appendAU batch au) pts
    else
      match batch with
      | some b =>
        if e.SampleRate = 0 then Except.error Panic.divideByZero
        else do
          let calls ← batchCalls e rest (some [au]) (advancePTS pts b.length e.SampleRate)
          pure ((b, pts) :: calls)
      | none => batchCalls e rest (some [au]) pts

/-- Making recorded calls of `writeBatch` in order, the encoder handed from one call to the
next: the packets of each call, and the encoder after the last. -/
def runCalls : List (List Bytes × Int) → Encoder → Except Panic (List (List Packet) × Encoder)
  | [], e => pure ([], e)
  | c :: rest, e => do
    let w ← writeBatch e c.1 c.2
    let r ← runCalls rest w.2.2
    pure (w.1 :: r.1, r.2)

/-- The encoder `e1` is `e` but for the running counter. -/
def SameConfig (e e1 : Encoder) : Prop :=
  e1 = { e with sequenceNumber := e1.sequenceNumber }

/-- The batch `b`, written as one aggregated packet under the default lengths, stays within the
payload limit: `2 + 2 * k + sum of the lengths ≤ PayloadMaxSize`. -/
def Fits (e : Encoder) (b : List Bytes) : Prop :=
  (2 + 2 * (b.length : Int) + (totalLen b : Int)) ≤ e.PayloadMaxSize

/-- Reading `k` AU-headers of 16 bits each: the AU-size fields (the upper 13 bits) and the bytes
that follow the headers. -/
def readSizes : Nat → List Nat → Option (List Nat × List Nat)
  | 0, bytes => some ([], bytes)
  | k + 1, h1 :: h2 :: rest =>
    match readSizes k rest with
    | some (sizes, data) => some ((h1 * 256 + h2) / 8 :: sizes, data)
    | none => none
  | _ + 1, _ => none

/-- Splitting the data bytes by the sizes read; the sizes have to use up the data. -/
def splitBySizes : List Nat → List Nat → Option (List (List Nat))
  | [], [] => some []
  | [], _ :: _ => none
  | s :: sizes, data =>
    if s ≤ data.length then
      match splitBySizes sizes (data.drop s) with
      | some units => some (data.take s :: units)
      | none => none
    else none

/-- Disaggregating one payload: read `k = AU-headers-length / 16`, read the `k` AU-size fields,
split the remaining bytes by those sizes. -/
def disaggregate : List Nat → Option (List (List Nat))
  | h1 :: h2 :: rest =>
    match readSizes ((h1 * 256 + h2) / 16) rest with
    | some (sizes, data) => splitBySizes sizes data
    | none => none
  | _ => none

/-- Disaggregating the payloads of a list of packets in order. -/
def disaggregateAll : List (List Nat) → Option (List (List Nat))
  | [] => some []
  | payload :: rest =>
    match disaggregate payload, disaggregateAll rest with
    | some units, some more => some (units ++ more)
    | _, _ => none


/-! ## Inversion of the encoder methods -/

theorem bind_eq_ok {α β : Type} {x : Except Panic α} {f : α → Except Panic β} {b : β}
    (h : (x >>= f) = Except.ok b) : ∃ a, x = Except.ok a ∧ f a = Except.ok b := by
  cases x with
  | error p => simp [bind, Except.bind] at h
  | ok a => exact ⟨a, rfl, by simpa [bind, Except.bind] using h⟩

theorem deref_eq_ok {α : Type} {o : Option α} {v : α} (h : deref o = Except.ok v) :
    o = some v := by
  cases o with
  | none => simp [deref] at h
  | some w => simp [deref] at h; rw [h]

theorem writeAggregated_ok {e : Encoder} {aus : List Bytes} {pts : Int} {r : Ret}
    (h : writeAggregated e aus pts = Except.ok r) :
    ∃ payload ts ssrc, encodeTimestamp e pts = Except.ok ts ∧ e.SSRC = some ssrc ∧
      r = ([{ Version := rtpVersion, PayloadType := e.PayloadType,
              SequenceNumber := e.sequenceNumber, Timestamp := ts, SSRC := ssrc, Marker := true,
              Payload := payload }], none,
            { e with sequenceNumber := (e.sequenceNumber + 1) % 65536 }) := by
  unfold writeAggregated at h
  obtain ⟨n, -, h⟩ := bind_eq_ok h
  split at h
  · cases h
  split at h
  · cases h
  obtain ⟨hw, -, h⟩ := bind_eq_ok h
  obtain ⟨payload, -, h⟩ := bind_eq_ok h
  obtain ⟨ts, hts, h⟩ := bind_eq_ok h
  obtain ⟨ssrc, hs, h⟩ := bind_eq_ok h
  refine ⟨payload, ts, ssrc, hts, deref_eq_ok hs, ?_⟩
  cases h
  rfl

theorem fragLoop_succ_ok {hl ms lps pc : Int} {ts todo i : Nat} {au : List Nat} {e : Encoder}
    {r : List Packet × Encoder}
    (h : fragLoop hl ms lps pc ts (todo + 1) i au e = Except.ok r) :
    ∃ payload ssrc au1 rest, e.SSRC = some ssrc ∧
      fragLoop hl ms lps pc ts todo (i + 1) au1
        { e with sequenceNumber := (e.sequenceNumber + 1) % 65536 } = Except.ok rest ∧
      r = ({ Version := rtpVersion, PayloadType := e.PayloadType,
             SequenceNumber := e.sequenceNumber, Timestamp := ts, SSRC := ssrc,
             Marker := decide ((i : Int) = pc - 1), Payload := payload } :: rest.1, rest.2) := by
  unfold fragLoop at h
  obtain ⟨payload, -, h⟩ := bind_eq_ok h
  obtain ⟨ssrc, hs, h⟩ := bind_eq_ok h
  obtain ⟨rest, hr, h⟩ := bind_eq_ok h
  refine ⟨payload, ssrc, _, rest, deref_eq_ok hs, hr, ?_⟩
  cases h
  rfl

theorem writeFragmented_ok {e : Encoder} {au : Bytes} {pts : Int} {r : Ret}
    (h : writeFragmented e au pts = Except.ok r) :
    ∃ hl ms lps pc ts rest, encodeTimestamp e pts = Except.ok ts ∧ 0 ≤ pc ∧
      fragLoop hl ms lps pc ts pc.toNat 0 (bdata au) e = Except.ok rest ∧
      r = (rest.1, none, rest.2) := by
  unfold writeFragmented at h
  obtain ⟨sl, -, h⟩ := bind_eq_ok h
  obtain ⟨il, -, h⟩ := bind_eq_ok h
  dsimp only at h
  by_cases h0 : e.PayloadMaxSize - 2 - (sl + il).tdiv 8 = 0
  · rw [if_pos h0] at h
    cases h
  rw [if_neg h0] at h
  generalize (if 0 < (blen au : Int).tmod (e.PayloadMaxSize - 2 - (sl + il).tdiv 8)
    then (blen au : Int).tdiv (e.PayloadMaxSize - 2 - (sl + il).tdiv 8) + 1
    else (blen au : Int).tdiv (e.PayloadMaxSize - 2 - (sl + il).tdiv 8)) = pc at h
  by_cases hpc : pc < 0
  · rw [if_pos hpc] at h
    cases h
  rw [if_neg hpc] at h
  obtain ⟨ts, hts, h⟩ := bind_eq_ok h
  obtain ⟨rest, hr, h⟩ := bind_eq_ok h
  refine ⟨_, _, _, pc, ts, rest, hts, not_lt.mp hpc, hr, ?_⟩
  cases h
  rfl


/-! ## Header fields of the packets of one batch -/

theorem fragLoop_headers {hl ms lps pc : Int} {ts : Nat} :
    ∀ (todo i : Nat) (au : List Nat) (e : Encoder) (r : List Packet × Encoder),
      fragLoop hl ms lps pc ts todo i au e = Except.ok r →
      r.1.length = todo ∧ Advanced e r.2 todo ∧
      ∀ j p, r.1[j]? = some p →
        HeaderAt e ts (fun k => decide (((i + k : Nat) : Int) = pc - 1)) j p := by
  intro todo
  induction todo with
  | zero =>
    intro i au e r h
    simp only [fragLoop, pure, Except.pure, Except.ok.injEq] at h
    subst h
    refine ⟨rfl, ⟨rfl, fun hs => ?_⟩, ?_⟩
    · show e.sequenceNumber = (e.sequenceNumber + 0) % 65536
      omega
    · intro j p hj
      simp at hj
  | succ todo ih =>
    intro i au e r h
    obtain ⟨payload, ssrc, au1, rest, hs, hrest, hr⟩ := fragLoop_succ_ok h
    obtain ⟨hlen, ⟨hfr, hseq⟩, hhd⟩ := ih (i + 1) au1 _ rest hrest
    subst hr
    refine ⟨by simp [hlen], ⟨?_, fun hlt => ?_⟩, ?_⟩
    · show rest.2 = _
      rw [hfr]
    · show rest.2.sequenceNumber = _
      have h1 := hseq (Nat.mod_lt _ (by norm_num))
      simp only at h1
      rw [h1]
      omega
    · intro j p hj
      cases j with
      | zero =>
        simp only [List.getElem?_cons_zero, Option.some.injEq] at hj
        subst hj
        refine ⟨rfl, rfl, hs.symm, rfl, ?_, fun hlt => ?_⟩
        · simp
        · show e.sequenceNumber = (e.sequenceNumber + 0) % 65536
          omega
      | succ j =>
        simp only [List.getElem?_cons_succ] at hj
        obtain ⟨h1, h2, h3, h4, h5, h6⟩ := hhd j p hj
        refine ⟨h1, h2, h3, h4, ?_, fun hlt => ?_⟩
        · rw [h5]
          simp only [decide_eq_decide]
          constructor <;> intro hh <;> push_cast at hh ⊢ <;> omega
        · have h7 := h6 (Nat.mod_lt _ (by norm_num))
          simp only at h7
          rw [h7]
          omega


theorem writeAggregated_headers {e : Encoder} {aus : List Bytes} {pts : Int} {r : Ret}
    (h : writeAggregated e aus pts = Except.ok r) :
    r.2.1 = none ∧ Advanced e r.2.2 r.1.length ∧ r.1.length = 1 ∧
    ∃ ts, encodeTimestamp e pts = Except.ok ts ∧
      ∀ j p, r.1[j]? = some p → HeaderAt e ts (fun k => decide (k + 1 = r.1.length)) j p := by
  obtain ⟨payload, ts, ssrc, hts, hs, hr⟩ := writeAggregated_ok h
  subst hr
  refine ⟨rfl, ⟨rfl, fun _ => rfl⟩, rfl, ts, hts, ?_⟩
  intro j p hj
  cases j with
  | zero =>
    simp only [List.getElem?_cons_zero, Option.some.injEq] at hj
    subst hj
    refine ⟨rfl, rfl, hs.symm, rfl, by simp, fun hlt => ?_⟩
    show e.sequenceNumber = (e.sequenceNumber + 0) % 65536
    omega
  | succ j => simp at hj

theorem writeFragmented_headers {e : Encoder} {au : Bytes} {pts : Int} {r : Ret}
    (h : writeFragmented e au pts = Except.ok r) :
    r.2.1 = none ∧ Advanced e r.2.2 r.1.length ∧
    ∃ ts, encodeTimestamp e pts = Except.ok ts ∧
      ∀ j p, r.1[j]? = some p → HeaderAt e ts (fun k => decide (k + 1 = r.1.length)) j p := by
  obtain ⟨hl, ms, lps, pc, ts, rest, hts, hpc, hrest, hr⟩ := writeFragmented_ok h
  obtain ⟨hlen, hadv, hhd⟩ := fragLoop_headers _ _ _ _ _ hrest
  subst hr
  refine ⟨rfl, ?_, ts, hts, ?_⟩
  · show Advanced e rest.2 rest.1.length
    rw [hlen]
    exact hadv
  · intro j p hj
    obtain ⟨h1, h2, h3, h4, h5, h6⟩ := hhd j p hj
    refine ⟨h1, h2, h3, h4, ?_, h6⟩
    rw [h5]
    show decide (((0 + j : Nat) : Int) = pc - 1) = decide (j + 1 = rest.1.length)
    rw [hlen, decide_eq_decide]
    constructor <;> intro hh <;> push_cast at hh ⊢ <;> omega

theorem writeBatch_headers {e : Encoder} {aus : List Bytes} {pts : Int} {r : Ret}
    (h : writeBatch e aus pts = Except.ok r) :
    r.2.1 = none ∧ Advanced e r.2.2 r.1.length ∧
    ∃ ts, encodeTimestamp e pts = Except.ok ts ∧
      ∀ j p, r.1[j]? = some p → HeaderAt e ts (fun k => decide (k + 1 = r.1.length)) j p := by
  unfold writeBatch at h
  split at h
  · split at h
    · obtain ⟨h1, h2, -, h3⟩ := writeAggregated_headers h
      exact ⟨h1, h2, h3⟩
    · exact writeFragmented_headers h
  · obtain ⟨h1, h2, -, h3⟩ := writeAggregated_headers h
    exact ⟨h1, h2, h3⟩

/-! ## The loop of Encode -/

theorem afterWrite_eq {rets : List Packet} {w : Ret}
    {k : List Packet → Encoder → Except Panic Ret} (h : w.2.1 = none) :
    afterWrite rets w k = k (rets ++ w.1) w.2.2 := by
  unfold afterWrite
  rw [h]

/-- An invariant of the local variable `rets` and the encoder that every call of `writeBatch`
preserves holds of what `Encode` returns; `Encode` never returns an error value. -/
theorem encodeLoop_inv (P : List Packet → Encoder → Prop)
    (hstep : ∀ (rets : List Packet) (e : Encoder) (b : List Bytes) (pts : Int) (w : Ret),
      P rets e → writeBatch e b pts = Except.ok w → P (rets ++ w.1) w.2.2) :
    ∀ (aus : List Bytes) (rets : List Packet) (batch : Option (List Bytes)) (pts : Int)
      (e : Encoder) (r : Ret),
      encodeLoop aus rets batch pts e = Except.ok r → P rets e → P r.1 r.2.2 ∧ r.2.1 = none := by
  intro aus
  induction aus with
  | nil =>
    intro rets batch pts e r h hP
    unfold encodeLoop at h
    obtain ⟨w, hw, h⟩ := bind_eq_ok h
    rw [afterWrite_eq (writeBatch_headers hw).1] at h
    cases h
    exact ⟨hstep _ _ _ _ _ hP hw, rfl⟩
  | cons au rest ih =>
    intro rets batch pts e r h hP
    unfold encodeLoop at h
    obtain ⟨l, -, h⟩ := bind_eq_ok h
    split at h
    · exact ih _ _ _ _ _ h hP
    · split at h
      · obtain ⟨w, hw, h⟩ := bind_eq_ok h
        rw [afterWrite_eq (writeBatch_headers hw).1] at h
        split at h
        · cases h
        · exact ih _ _ _ _ _ h (hstep _ _ _ _ _ hP hw)
      · exact ih _ _ _ _ _ h hP


/-! ## The AU-header of 13 + 3 bits -/

theorem writeBits_13_3 (out : List Nat) (v : Nat) :
    (BitWriter.writeBits ⟨out, 0, 0⟩ v 13).writeBits 0 3 =
      ⟨out ++ [v % 8192 * 8 / 256, v % 8192 * 8 % 256], 0, 0⟩ := by
  simp only [BitWriter.writeBits, BitWriter.writeBit]
  norm_num
  constructor <;> omega

/-! ## Payloads under the default lengths -/

theorem blen_eq_length (a : Bytes) : blen a = (bdata a).length := by
  cases a <;> rfl

theorem auHeaders_length (aus : List Bytes) : (auHeaders aus).length = 2 * aus.length := by
  induction aus with
  | nil => rfl
  | cons a rest ih => simp [auHeaders, be16, ih]; omega

theorem auData_length (aus : List Bytes) : (auData aus).length = totalLen aus := by
  induction aus with
  | nil => rfl
  | cons a rest ih => simp [auData, totalLen, ih, blen_eq_length]

theorem auHeaderBytes_default {e : Encoder} (hD : DefaultLengths e) (i : Nat) :
    auHeaderBytes e i = Except.ok 2 := by
  obtain ⟨h1, h2, h3⟩ := hD
  unfold auHeaderBytes
  rw [h1, h2, h3]
  by_cases hi : i = 0
  · simp [hi, deref, bind, Except.bind, pure, Except.pure]
    decide
  · simp [hi, deref, bind, Except.bind, pure, Except.pure]
    decide

theorem lenAggregatedLoop_default {e : Encoder} (hD : DefaultLengths e) :
    ∀ (aus : List Bytes) (ret : Int) (i : Nat),
      lenAggregatedLoop e aus ret i =
        Except.ok (ret + 2 * aus.length + totalLen aus, i + aus.length) := by
  intro aus
  induction aus with
  | nil =>
    intro ret i
    simp [lenAggregatedLoop, totalLen, pure, Except.pure]
  | cons a rest ih =>
    intro ret i
    unfold lenAggregatedLoop
    rw [auHeaderBytes_default hD]
    simp only [bind, Except.bind]
    rw [ih]
    simp only [totalLen, List.length_cons]
    congr 2
    · push_cast
      ring
    · omega

theorem lenAggregated_default {e : Encoder} (hD : DefaultLengths e) (aus : List Bytes)
    (addAU : Bytes) :
    lenAggregated e aus addAU =
      Except.ok (match addAU with
        | none => 2 + 2 * (aus.length : Int) + totalLen aus
        | some a => 2 + 2 * (aus.length : Int) + totalLen aus + 2 + a.length) := by
  unfold lenAggregated
  rw [lenAggregatedLoop_default hD]
  cases addAU with
  | none => simp [bind, Except.bind, pure, Except.pure]
  | some a =>
    simp only [bind, Except.bind]
    rw [auHeaderBytes_default hD]
    simp [pure, Except.pure]

theorem aggHeaderLoop_default {e : Encoder} (hD : DefaultLengths e) :
    ∀ (aus : List Bytes) (i : Nat) (out : List Nat) (written : Int),
      (∀ a ∈ aus, blen a < 8192) →
      aggHeaderLoop e aus i ⟨out, 0, 0⟩ written =
        Except.ok (⟨out ++ auHeaders aus, 0, 0⟩, written + 16 * aus.length) := by
  intro aus
  induction aus with
  | nil =>
    intro i out written _
    simp [aggHeaderLoop, auHeaders, pure, Except.pure]
  | cons a rest ih =>
    intro i out written hlen
    have ha : blen a < 8192 := hlen a (List.mem_cons_self _ _)
    have hv : blen a % 2 ^ 64 % 8192 = blen a := by omega
    have h13 : ((13 : Int) % 256).toNat = 13 := by decide
    have h3 : ((3 : Int) % 256).toNat = 3 := by decide
    obtain ⟨h1, h2, h4⟩ := hD
    unfold aggHeaderLoop
    rw [h1, h2, h4]
    simp only [deref, bind, Except.bind, h13, h3]
    rw [writeBits_13_3, hv]
    have hrest := ih (i + 1) (out ++ be16 (blen a * 8)) (written + 13 + 3)
      (fun b hb => hlen b (List.mem_cons_of_mem _ hb))
    simp only [be16] at hrest
    split
    · rw [hrest]
      simp only [auHeaders, be16, List.length_cons, List.append_assoc]
      congr 2
      push_cast
      ring
    · rw [hrest]
      simp only [auHeaders, be16, List.length_cons, List.append_assoc]
      congr 2
      push_cast
      ring

theorem copyAt_zeros (pre src : List Nat) (m : Nat) :
    copyAt (pre ++ List.replicate (src.length + m) 0) pre.length src =
      pre ++ src ++ List.replicate m 0 := by
  unfold copyAt
  simp only [List.length_append, List.length_replicate, List.take_left, List.append_assoc,
    List.append_cancel_left_eq]
  rw [List.take_of_length_le (by omega), List.drop_append_eq_append_drop]
  simp

theorem aggCopyLoop_zeros :
    ∀ (aus : List Bytes) (pre : List Nat),
      aggCopyLoop aus (pre ++ List.replicate (totalLen aus) 0) pre.length =
        Except.ok (pre ++ auData aus) := by
  intro aus
  induction aus with
  | nil =>
    intro pre
    simp [aggCopyLoop, totalLen, auData, pure, Except.pure]
  | cons a rest ih =>
    intro pre
    unfold aggCopyLoop
    have hlen : (pre ++ List.replicate (totalLen (a :: rest)) 0).length =
        pre.length + blen a + totalLen rest := by
      simp [totalLen]
      omega
    rw [if_neg (by rw [hlen]; push_cast; omega)]
    have hc : copyAt (pre ++ List.replicate (totalLen (a :: rest)) 0)
        (pre.length : Int).toNat (bdata a) = (pre ++ bdata a) ++ List.replicate (totalLen rest) 0 := by
      rw [Int.toNat_ofNat]
      show copyAt (pre ++ List.replicate (blen a + totalLen rest) 0) pre.length (bdata a) = _
      rw [blen_eq_length, copyAt_zeros]
    rw [hc, hlen]
    have hpos : (pre.length : Int) + min (((pre.length + blen a + totalLen rest : Nat) : Int)
        - pre.length) (blen a) = ((pre ++ bdata a).length : Nat) := by
      rw [List.length_append, ← blen_eq_length]
      push_cast
      rw [min_eq_right (by omega)]
    rw [hpos, ih]
    simp [auData]

theorem encodeTimestamp_ok {e : Encoder} {it : Nat} (h : e.InitialTimestamp = some it)
    (pts : Int) :
    encodeTimestamp e pts = Except.ok
      ((it + F64.toUint32 (F64.mul (Seconds pts) (F64.ofInt e.SampleRate))) % 4294967296) := by
  unfold encodeTimestamp
  rw [h]
  rfl

theorem putUint16_cons (a b : Nat) (rest : List Nat) (v : Nat) (hv : v < 65536) :
    putUint16 (a :: b :: rest) v = be16 v ++ rest := by
  unfold putUint16 copyAt be16
  have h : v / 256 % 256 = v / 256 := Nat.mod_eq_of_lt (by omega)
  simp [h]

theorem writeAggregated_default {e : Encoder} (hD : DefaultLengths e) {ts ssrc : Nat}
    {pts : Int} (hts : encodeTimestamp e pts = Except.ok ts) (hs : e.SSRC = some ssrc)
    (aus : List Bytes) (hlen : ∀ a ∈ aus, blen a < 8192) :
    writeAggregated e aus pts = Except.ok
      ([{ Version := rtpVersion, PayloadType := e.PayloadType,
          SequenceNumber := e.sequenceNumber, Timestamp := ts, SSRC := ssrc, Marker := true,
          Payload := be16 (16 * aus.length % 65536) ++ auHeaders aus ++ auData aus }], none,
        { e with sequenceNumber := (e.sequenceNumber + 1) % 65536 }) := by
  unfold writeAggregated
  rw [lenAggregated_default hD]
  simp only [bind, Except.bind]
  rw [if_neg (by omega), if_neg (by omega)]
  have hh := aggHeaderLoop_default hD aus 0 [] 0 hlen
  rw [show BitWriter.new = ⟨[], 0, 0⟩ from rfl, hh]
  simp only [List.nil_append, BitWriter.close, lt_irrefl, if_false, zero_add]
  have hn : (2 + 2 * (aus.length : Int) + (totalLen aus : Int)).toNat
      = 2 + ((auHeaders aus).length + totalLen aus) := by
    rw [auHeaders_length]
    omega
  rw [hn]
  have h0 : List.replicate (2 + ((auHeaders aus).length + totalLen aus)) 0
      = [0, 0] ++ List.replicate ((auHeaders aus).length + totalLen aus) 0 := by
    rw [List.replicate_add]
    rfl
  rw [h0, show (2 : Nat) = ([0, 0] : List Nat).length from rfl, copyAt_zeros]
  have hv : (16 * (aus.length : Int) % 65536).toNat = 16 * aus.length % 65536 := by omega
  rw [hv]
  have hp : putUint16 ([0, 0] ++ auHeaders aus ++ List.replicate (totalLen aus) 0)
      (16 * aus.length % 65536)
      = (be16 (16 * aus.length % 65536) ++ auHeaders aus) ++ List.replicate (totalLen aus) 0 := by
    have := putUint16_cons 0 0 (auHeaders aus ++ List.replicate (totalLen aus) 0)
      (16 * aus.length % 65536) (Nat.mod_lt _ (by norm_num))
    simpa using this
  rw [hp]
  have hpos : (2 : Int) + (16 * (aus.length : Int)).tdiv 8
      = ((be16 (16 * aus.length % 65536) ++ auHeaders aus).length : Nat) := by
    rw [Int.tdiv_eq_ediv (by omega) (by omega)]
    simp only [List.length_append, auHeaders_length, be16, List.length_cons, List.length_nil]
    push_cast
    omega
  rw [hpos, aggCopyLoop_zeros]
  simp only [hts, hs, deref]
  rfl

theorem fragPayload_default {e : Encoder} (hD : DefaultLengths e) (le : Nat) (au : List Nat)
    (hle : le ≤ au.length) :
    fragPayload e 16 (le : Int) au =
      Except.ok ([0, 16] ++ be16 (le % 8192 * 8) ++ au.take le) := by
  obtain ⟨h1, h2, -⟩ := hD
  have ht : (16 : Int).tdiv 8 = 2 := by decide
  have hn : (2 + 2 + (le : Int)).toNat = 2 + (2 + le) := by omega
  have hv : (((le : Int) % 2 ^ 64).toNat) % 8192 = le % 8192 := by omega
  have hb13 : ((13 : Int) % 256).toNat = 13 := by decide
  have hb3 : ((3 : Int) % 256).toNat = 3 := by decide
  have h16 : ((16 : Int) % 65536).toNat = 16 := by decide
  unfold fragPayload
  simp only [ht, h1, h2, deref, bind, Except.bind, hb13, hb3, h16, hn]
  rw [if_neg (by omega), if_neg (by omega)]
  rw [show BitWriter.new = ⟨[], 0, 0⟩ from rfl, writeBits_13_3, hv]
  rw [if_neg (by omega), if_neg (by omega)]
  simp only [List.nil_append, BitWriter.close, lt_irrefl, if_false, pure, Except.pure]
  have h0 : List.replicate (2 + (2 + le)) 0 = 0 :: 0 :: List.replicate (2 + le) 0 := by
    rw [List.replicate_add]
    rfl
  rw [h0, putUint16_cons 0 0 _ 16 (by norm_num)]
  have hc1 : copyAt (be16 16 ++ List.replicate (2 + le) 0) 2
      [le % 8192 * 8 / 256, le % 8192 * 8 % 256]
      = ([0, 16] ++ be16 (le % 8192 * 8)) ++ List.replicate le 0 := by
    have := copyAt_zeros [0, 16] [le % 8192 * 8 / 256, le % 8192 * 8 % 256] le
    simpa [be16] using this
  rw [hc1]
  have hc2 : copyAt (([0, 16] ++ be16 (le % 8192 * 8)) ++ List.replicate le 0)
      (2 + 2 : Int).toNat (au.take le) = ([0, 16] ++ be16 (le % 8192 * 8)) ++ au.take le := by
    have := copyAt_zeros ([0, 16] ++ be16 (le % 8192 * 8)) (au.take le) 0
    rw [List.length_take, min_eq_left hle] at this
    simpa [be16] using this
  rw [Int.toNat_ofNat, hc2]

/-- Under the default lengths the loop of `writeFragmented` does not panic when the access unit
holds enough bytes, and the packet at position `j` of the `todo` packets it makes carries the
bytes from offset `j * ms` on: `ms` of them, the last packet `lps`. -/
theorem fragLoop_default {e : Encoder} (hD : DefaultLengths e) {ssrc : Nat}
    (hs : e.SSRC = some ssrc) (ms lps : Nat) (pc : Int) (ts : Nat) :
    ∀ (todo i : Nat) (au : List Nat) (e1 : Encoder),
      e1 = { e with sequenceNumber := e1.sequenceNumber } →
      (i : Int) + todo = pc → (1 ≤ todo → (todo - 1) * ms + lps ≤ au.length) →
      ∃ r, fragLoop 16 ms lps pc ts todo i au e1 = Except.ok r ∧ r.1.length = todo ∧
        ∀ j p, r.1[j]? = some p →
          p.Payload = [0, 16]
            ++ be16 (((au.drop (j * ms)).take (if j + 1 = todo then lps else ms)).length
                % 8192 * 8)
            ++ (au.drop (j * ms)).take (if j + 1 = todo then lps else ms) := by
  intro todo
  induction todo with
  | zero =>
    intro i au e1 _ _ _
    exact ⟨([], e1), rfl, rfl, fun j p hj => by simp at hj⟩
  | succ todo ih =>
    intro i au e1 he1 hpc hlen
    have hD1 : DefaultLengths e1 := by
      rw [he1]
      exact hD
    have hs1 : e1.SSRC = some ssrc := by
      rw [he1]
      exact hs
    have hlen1 := hlen (by omega)
    simp only [Nat.add_sub_cancel] at hlen1
    -- the chunk of this iteration
    obtain ⟨le, hle_def, hle_len, hle_eq⟩ : ∃ le : Nat,
        (if (i : Int) ≠ pc - 1 then (ms : Int) else (lps : Int)) = (le : Int) ∧
        le ≤ au.length ∧ le = (if 0 + 1 = todo + 1 then lps else ms) := by
      by_cases h0 : todo = 0
      · refine ⟨lps, ?_, ?_, by simp [h0]⟩
        · rw [if_neg (by push_cast at hpc ⊢; omega)]
        · subst h0
          simpa using hlen1
      · refine ⟨ms, ?_, ?_, by simp [h0]⟩
        · rw [if_pos (by push_cast at hpc ⊢; omega)]
        · have : 1 ≤ todo := by omega
          calc ms ≤ todo * ms := Nat.le_mul_of_pos_left _ (by omega)
            _ ≤ au.length := by omega
    have hnext : 1 ≤ todo → (todo - 1) * ms + lps ≤ (au.drop le).length := by
      intro h1
      have hle_ms : le = ms := by
        rw [hle_eq, if_neg (by omega)]
      rw [List.length_drop, hle_ms]
      have : todo * ms = (todo - 1) * ms + ms := by
        conv_lhs => rw [show todo = (todo - 1) + 1 by omega]
        ring
      omega
    obtain ⟨rest, hrest, hrlen, hrp⟩ := ih (i + 1) (au.drop le)
      { e1 with sequenceNumber := (e1.sequenceNumber + 1) % 65536 }
      (by rw [he1]) (by push_cast at hpc ⊢; omega) hnext
    refine ⟨({ Version := rtpVersion, PayloadType := e1.PayloadType,
               SequenceNumber := e1.sequenceNumber, Timestamp := ts, SSRC := ssrc,
               Marker := decide ((i : Int) = pc - 1),
               Payload := [0, 16] ++ be16 (le % 8192 * 8) ++ au.take le } :: rest.1, rest.2),
      ?_, ?_, ?_⟩
    · unfold fragLoop
      simp only [hle_def, Int.toNat_ofNat]
      have hd : deref e1.SSRC = Except.ok ssrc := by
        rw [hs1]
        rfl
      rw [fragPayload_default hD1 le au hle_len, hd]
      simp only [bind, Except.bind]
      rw [hrest]
      rfl
    · simp [hrlen]
    · intro j p hj
      cases j with
      | zero =>
        simp only [List.getElem?_cons_zero, Option.some.injEq] at hj
        subst hj
        simp only [Nat.zero_mul, List.drop_zero, ← hle_eq, List.length_take, min_eq_left hle_len]
      | succ j =>
        simp only [List.getElem?_cons_succ] at hj
        have h2 := hrp j p hj
        have hle_ms : le = ms := by
          have : j < todo := by
            rw [← hrlen]
            exact (List.getElem?_eq_some_iff.mp hj).1
          rw [hle_eq, if_neg (by omega)]
        rw [h2, List.drop_drop, hle_ms]
        have e1 : ms + j * ms = (j + 1) * ms := by ring
        have e2 : (j + 1 = todo) ↔ (j + 1 + 1 = todo + 1) := by omega
        simp only [e1, e2]

/-- Under the default lengths and a payload limit of at least 5, `writeFragmented` returns
`len / auMaxSize` packets, one more if the division leaves a remainder; the packet at position
`j` carries the bytes of the access unit from offset `j * auMaxSize` on, `auMaxSize` of them,
except the last packet, which carries `len % auMaxSize` bytes. -/
theorem writeFragmented_default {e : Encoder} (hD : DefaultLengths e) {ssrc it : Nat}
    (hs : e.SSRC = some ssrc) (hit : e.InitialTimestamp = some it) (h5 : 5 ≤ e.PayloadMaxSize)
    (au : Bytes) (pts : Int) :
    ∃ r, writeFragmented e au pts = Except.ok r ∧ r.2.1 = none ∧
      r.1.length = blen au / (e.PayloadMaxSize - 4).toNat
        + (if 0 < blen au % (e.PayloadMaxSize - 4).toNat then 1 else 0) ∧
      ∀ j p, r.1[j]? = some p →
        p.Payload = [0, 16]
          ++ be16 ((((bdata au).drop (j * (e.PayloadMaxSize - 4).toNat)).take
                (if j + 1 = r.1.length then blen au % (e.PayloadMaxSize - 4).toNat
                 else (e.PayloadMaxSize - 4).toNat)).length % 8192 * 8)
          ++ ((bdata au).drop (j * (e.PayloadMaxSize - 4).toNat)).take
                (if j + 1 = r.1.length then blen au % (e.PayloadMaxSize - 4).toNat
                 else (e.PayloadMaxSize - 4).toNat) := by
  obtain ⟨ms, hms⟩ : ∃ ms : Nat, e.PayloadMaxSize - 4 = (ms : Int) :=
    ⟨(e.PayloadMaxSize - 4).toNat, by omega⟩
  have hms1 : 1 ≤ ms := by omega
  rw [hms, Int.toNat_ofNat]
  obtain ⟨h1, h2, h3⟩ := hD
  have hD' : DefaultLengths e := ⟨h1, h2, h3⟩
  have hsum : ((13 : Int) + 3) = 16 := by norm_num
  have hmax : e.PayloadMaxSize - 2 - (16 : Int).tdiv 8 = (ms : Int) := by
    rw [show (16 : Int).tdiv 8 = 2 by decide]
    omega
  have hq : (blen au : Int).tdiv (ms : Int) = ((blen au / ms : Nat) : Int) :=
    (Int.ofNat_tdiv _ _).symm
  have hr : (blen au : Int).tmod (ms : Int) = ((blen au % ms : Nat) : Int) :=
    (Int.ofNat_tmod _ _).symm
  set lps := blen au % ms with hlps
  set pcN := blen au / ms + (if 0 < lps then 1 else 0) with hpcN
  have hpc : (if (0 : Int) < (lps : Int) then ((blen au / ms : Nat) : Int) + 1
      else ((blen au / ms : Nat) : Int)) = (pcN : Int) := by
    rw [hpcN]
    split_ifs with hc1 hc2 hc2
    · push_cast
      rfl
    · exact absurd (by exact_mod_cast hc1) hc2
    · exact absurd (by exact_mod_cast hc2) hc1
    · push_cast
      rfl
  have hdm := Nat.div_add_mod (blen au) ms
  have hbound : 1 ≤ pcN → (pcN - 1) * ms + lps ≤ (bdata au).length := by
    intro hp
    rw [← blen_eq_length]
    rw [hpcN] at hp ⊢
    split_ifs at hp ⊢ with hc
    · simp only [Nat.add_sub_cancel]
      rw [Nat.mul_comm]
      omega
    · have hl0 : lps = 0 := by omega
      rw [hl0, Nat.add_zero, Nat.add_zero]
      have : (blen au / ms - 1) * ms ≤ blen au / ms * ms :=
        Nat.mul_le_mul_right _ (Nat.sub_le _ _)
      rw [Nat.mul_comm (blen au / ms) ms] at this
      omega
  obtain ⟨r, hrok, hrlen, hrp⟩ := fragLoop_default hD' hs ms lps (pcN : Int)
    ((it + F64.toUint32 (F64.mul (Seconds pts) (F64.ofInt e.SampleRate))) % 4294967296)
    pcN 0 (bdata au) e rfl (by simp) hbound
  refine ⟨(r.1, none, r.2), ?_, rfl, hrlen, ?_⟩
  · unfold writeFragmented
    rw [h1, h2]
    simp only [deref, bind, Except.bind, hsum, hmax, hq, hr, hpc]
    rw [if_neg (by omega), if_neg (by omega), encodeTimestamp_ok hit]
    simp only [Int.toNat_ofNat]
    rw [hrok]
    rfl
  · intro j p hj
    have := hrp j p hj
    simp only [hrlen]
    exact this

/-! ## float64: exact cases -/

theorem lt_two_pow_bitLen : ∀ (fuel n : Nat), n ≤ fuel → n < 2 ^ bitLen fuel n := by
  intro fuel
  induction fuel with
  | zero =>
    intro n hn
    have : n = 0 := by omega
    subst this
    simp [bitLen]
  | succ fuel ih =>
    intro n hn
    unfold bitLen
    by_cases h0 : n = 0
    · simp [h0]
    · rw [if_neg h0]
      have h2 := ih (n / 2) (by omega)
      rw [pow_succ]
      omega

theorem bitLen_le_of_lt : ∀ (fuel n k : Nat), n < 2 ^ k → bitLen fuel n ≤ k := by
  intro fuel
  induction fuel with
  | zero =>
    intro n k _
    simp [bitLen]
  | succ fuel ih =>
    intro n k hk
    unfold bitLen
    by_cases h0 : n = 0
    · simp [h0]
    · rw [if_neg h0]
      cases k with
      | zero => simp at hk; omega
      | succ k =>
        have := ih (n / 2) k (by rw [pow_succ] at hk; omega)
        omega

theorem F64.round_exact (N d : Nat) (hN : N < 2 ^ 53) (hd : 0 < d) :
    F64.IsNat (F64.round false (N * d) d) N := by
  unfold F64.round
  by_cases h0 : N * d = 0 ∨ d = 0
  · rw [if_pos h0]
    have hN0 : N = 0 := by
      rcases h0 with h | h
      · rcases Nat.mul_eq_zero.mp h with h | h
        · exact h
        · omega
      · omega
    subst hN0
    exact ⟨rfl, le_refl _, by simp⟩
  rw [if_neg h0]
  have hNpos : 0 < N := by
    rcases Nat.eq_zero_or_pos N with h | h
    · exact absurd (Or.inl (by rw [h, Nat.zero_mul])) h0
    · exact h
  -- the first estimate of the exponent is not positive
  have hbl : (bitLen (N * d) (N * d) : Int) ≤ 53 + bitLen d d := by
    have h1 : d < 2 ^ bitLen d d := lt_two_pow_bitLen d d (le_refl _)
    have h2 : N * d < 2 ^ (53 + bitLen d d) := by
      rw [pow_add]
      exact Nat.mul_lt_mul'' hN h1
    exact_mod_cast bitLen_le_of_lt _ _ _ h2
  have he0 : (bitLen (N * d) (N * d) : Int) - (bitLen d d : Int) - 53 ≤ 0 := by omega
  generalize (bitLen (N * d) (N * d) : Int) - (bitLen d d : Int) - 53 = e0 at he0 ⊢
  simp only []
  -- the exponent finally chosen is not positive either
  obtain ⟨e, he_def, he⟩ : ∃ e : Int,
      (if N * d * 2 ^ (-e0).toNat / (d * 2 ^ e0.toNat) < 2 ^ 53 then e0 else e0 + 1) = e ∧
      e ≤ 0 := by
    refine ⟨_, rfl, ?_⟩
    split_ifs with hc
    · exact he0
    · by_contra hpos
      have : e0 = 0 := by omega
      subst this
      apply hc
      simp only [neg_zero, Int.toNat_zero, pow_zero, Nat.mul_one]
      rw [Nat.mul_div_cancel _ hd]
      exact hN
  rw [he_def]
  have hden : d * 2 ^ e.toNat = d := by
    rw [Int.toNat_eq_zero.mpr he]
    simp
  have hnum : N * d * 2 ^ (-e).toNat = (N * 2 ^ (-e).toNat) * d := by ring
  rw [hden, hnum, Nat.mul_div_cancel _ hd, Nat.mul_mod_left]
  rw [if_pos (show 2 * 0 < d by omega)]
  split_ifs with hm
  · have hk : 1 ≤ (-e).toNat := by
      by_contra hk
      have : (-e).toNat = 0 := by omega
      rw [this] at hm
      omega
    refine ⟨rfl, by show e + 1 ≤ 0; omega, ?_⟩
    show 2 ^ 52 = N * 2 ^ (-(e + 1)).toNat
    have hk2 : (-e).toNat = (-(e + 1)).toNat + 1 := by omega
    rw [hk2, pow_succ, ← Nat.mul_assoc] at hm
    omega
  · exact ⟨rfl, he, rfl⟩

theorem F64.ofInt_natCast (N : Nat) (hN : N < 2 ^ 53) : F64.IsNat (F64.ofInt (N : Int)) N := by
  unfold F64.ofInt
  have h1 : decide ((N : Int) < 0) = false := by simp
  rw [h1, Int.natAbs_ofNat]
  have := F64.round_exact N 1 hN (by norm_num)
  rwa [Nat.mul_one] at this

theorem F64.ofInt_zero : F64.ofInt 0 = ⟨false, 0, 0⟩ := by decide

theorem F64.div_zero_left (b : F64) : F64.div ⟨false, 0, 0⟩ b = ⟨b.neg, 0, 0⟩ := by
  unfold F64.div F64.round
  simp

theorem F64.add_zero_right {a : F64} {N : Nat} (ha : F64.IsNat a N) (hN : N < 2 ^ 53)
    (s : Bool) : F64.IsNat (F64.add a ⟨s, 0, 0⟩) N := by
  obtain ⟨h1, h2, h3⟩ := ha
  unfold F64.add
  simp only [h1, min_eq_left h2, sub_self, Int.toNat_zero, pow_zero, Nat.mul_one, Nat.zero_mul,
    Bool.false_eq_true, if_false, one_mul, Nat.cast_zero, mul_zero, add_zero]
  have hneg : decide ((a.mant : Int) < 0) = false := by simp
  rw [hneg, Int.natAbs_ofNat, Int.toNat_eq_zero.mpr h2, pow_zero, Nat.mul_one, h3]
  exact F64.round_exact N _ hN (by positivity)

theorem F64.mul_exact {a b : F64} {N M : Nat} (ha : F64.IsNat a N) (hb : F64.IsNat b M)
    (hNM : N * M < 2 ^ 53) : F64.IsNat (F64.mul a b) (N * M) := by
  obtain ⟨a1, a2, a3⟩ := ha
  obtain ⟨b1, b2, b3⟩ := hb
  unfold F64.mul
  simp only [a1, b1, bne_self_eq_false]
  have he : a.exp + b.exp ≤ 0 := by omega
  rw [Int.toNat_eq_zero.mpr he, pow_zero, Nat.mul_one, a3, b3]
  have hpow : 2 ^ (-(a.exp + b.exp)).toNat = 2 ^ (-a.exp).toNat * 2 ^ (-b.exp).toNat := by
    rw [← pow_add]
    congr 1
    omega
  have hn : N * 2 ^ (-a.exp).toNat * (M * 2 ^ (-b.exp).toNat)
      = (N * M) * 2 ^ (-(a.exp + b.exp)).toNat := by
    rw [hpow]
    ring
  rw [hn]
  exact F64.round_exact (N * M) _ hNM (by positivity)

theorem F64.toUint32_natCast {a : F64} {N : Nat} (ha : F64.IsNat a N) :
    F64.toUint32 a = N % 4294967296 := by
  obtain ⟨h1, h2, h3⟩ := ha
  unfold F64.toUint32
  simp only [h1, Bool.false_eq_true, if_false]
  rw [Int.toNat_eq_zero.mpr h2, pow_zero, Nat.mul_one, h3,
    Nat.mul_div_cancel _ (by positivity)]
  omega

theorem Seconds_whole (S : Nat) (hS : S < 2 ^ 53) :
    F64.IsNat (Seconds ((S : Int) * 1000000000)) S := by
  unfold Seconds
  have h1 : ((S : Int) * 1000000000).tdiv 1000000000 = S :=
    Int.mul_tdiv_cancel _ (by norm_num)
  have h2 : ((S : Int) * 1000000000).tmod 1000000000 = 0 := Int.mul_tmod_left _ _
  simp only [h1, h2, F64.ofInt_zero, F64.div_zero_left]
  exact F64.add_zero_right (F64.ofInt_natCast S hS) hS _

theorem F64.toUint32_mul_zero (a b : F64) (ha : a.mant = 0) :
    F64.toUint32 (F64.mul a b) = 0 := by
  unfold F64.mul
  rw [ha]
  simp only [Nat.zero_mul]
  unfold F64.round
  rw [if_pos (Or.inl rfl)]
  unfold F64.toUint32
  simp

theorem Seconds_zero : Seconds 0 = ⟨false, 0, 0⟩ := by decide

theorem encodeTimestamp_zero {e : Encoder} {it : Nat} (hit : e.InitialTimestamp = some it)
    (hlt : it < 4294967296) : encodeTimestamp e 0 = Except.ok it := by
  rw [encodeTimestamp_ok hit, F64.toUint32_mul_zero _ _ (by rw [Seconds_zero]),
    Nat.add_zero, Nat.mod_eq_of_lt hlt]

theorem encodeTimestamp_whole {e : Encoder} {it : Nat} (hit : e.InitialTimestamp = some it)
    (S R : Nat) (hR : e.SampleRate = (R : Int)) (hS : S < 2 ^ 53) (hSR : S * R < 2 ^ 32) :
    encodeTimestamp e ((S : Int) * 1000000000) = Except.ok ((it + S * R) % 4294967296) := by
  rw [encodeTimestamp_ok hit, hR]
  rcases Nat.eq_zero_or_pos S with h0 | hpos
  · subst h0
    rw [F64.toUint32_mul_zero _ _ (Seconds_whole 0 (by norm_num)).2.2]
    simp
  · have hRlt : R < 2 ^ 53 := by
      have : R ≤ S * R := Nat.le_mul_of_pos_left _ hpos
      omega
    have := F64.toUint32_natCast
      (F64.mul_exact (Seconds_whole S hS) (F64.ofInt_natCast R hRlt) (by omega))
    rw [this]
    congr 1
    omega

/-! ## Facts about the example inputs -/

theorem smallEncoder_initialised : Initialised smallEncoder :=
  ⟨by decide, by decide, by decide, ⟨_, rfl, by decide⟩, ⟨_, rfl, by decide⟩,
    ⟨_, rfl, by decide⟩, ⟨_, rfl⟩, ⟨_, rfl⟩, ⟨_, rfl⟩⟩

theorem smallEncoder_defaultLengths : DefaultLengths smallEncoder := ⟨rfl, rfl, rfl⟩

set_option maxRecDepth 100000 in
theorem Encode_twoUnits : Encode smallEncoder twoUnits 0 = Except.ok twoUnitsRet := by decide

set_option maxRecDepth 100000 in
theorem writeBatch_fiveBytes :
    writeBatch smallEncoder [fiveBytes] 0 = Except.ok fiveBytesRet := by decide

/-! ## Sequence numbers, payload type, SSRC -/

theorem Advanced.fields {e1 e2 : Encoder} {n : Nat} (h : Advanced e1 e2 n) :
    e2.PayloadType = e1.PayloadType ∧ e2.SSRC = e1.SSRC := by
  obtain ⟨h1, -⟩ := h
  constructor
  · rw [h1]
  · rw [h1]

/-- C7: every packet that `Encode` returns carries the encoder's `PayloadType` and the value its
`SSRC` field points to (fields that `Encode` leaves as they are), and `Init` keeps the
`PayloadType` and a caller-supplied SSRC and seeds an absent SSRC from the random source. -/
theorem Encode_payloadType_ssrc (e : Encoder) (aus : List Bytes) (pts : Int) (r : Ret)
    (rSSRC rSeq rTs : Nat) (h : Encode e aus pts = Except.ok r) :
    (∀ p ∈ r.1, p.PayloadType = e.PayloadType ∧ some p.SSRC = e.SSRC) ∧
    r.2.2.PayloadType = e.PayloadType ∧ r.2.2.SSRC = e.SSRC ∧
    (Init e rSSRC rSeq rTs).PayloadType = e.PayloadType ∧
    (Init e rSSRC rSeq rTs).SSRC = some (e.SSRC.getD (rSSRC % 4294967296)) := by
  have key := encodeLoop_inv
    (fun rets e1 => e1.PayloadType = e.PayloadType ∧ e1.SSRC = e.SSRC ∧
      ∀ p ∈ rets, p.PayloadType = e.PayloadType ∧ some p.SSRC = e.SSRC)
    (by
      intro rets e1 b pts1 w hP hw
      obtain ⟨hpt, hss, hall⟩ := hP
      obtain ⟨-, hadv, ts, -, hhd⟩ := writeBatch_headers hw
      obtain ⟨f1, f2⟩ := hadv.fields
      refine ⟨f1.trans hpt, f2.trans hss, ?_⟩
      intro p hp
      rcases List.mem_append.mp hp with hp | hp
      · exact hall p hp
      · obtain ⟨j, hj⟩ := List.mem_iff_getElem?.mp hp
        obtain ⟨-, h2, h3, -⟩ := hhd j p hj
        exact ⟨h2.trans hpt, h3.trans hss⟩)
    aus [] none pts e r h ⟨rfl, rfl, by simp⟩
  obtain ⟨⟨k1, k2, k3⟩, -⟩ := key
  refine ⟨k3, k1, k2, ?_, ?_⟩
  · rfl
  · cases hs : e.SSRC <;> simp [Init, hs]

/-- Witness of `Encode_payloadType_ssrc` on the two-unit example. -/
theorem Encode_payloadType_ssrc_witness :
    Encode smallEncoder twoUnits 0 = Except.ok twoUnitsRet ∧
    twoUnitsRet.1.map (fun p => (p.PayloadType, p.SSRC)) = [(96, 2646308882), (96, 2646308882)] ∧
    smallEncoder.PayloadType = 96 ∧ smallEncoder.SSRC = some 2646308882 :=
  ⟨Encode_twoUnits, by decide,
    ((Encode_payloadType_ssrc smallEncoder twoUnits 0 twoUnitsRet 0 0 0 Encode_twoUnits).2.1).symm.trans
      (by decide),
    ((Encode_payloadType_ssrc smallEncoder twoUnits 0 twoUnitsRet 0 0 0 Encode_twoUnits).2.2.1).symm.trans
      (by decide)⟩

/-- C4: on an initialised encoder whose running counter is `s`, the packet at position `i` of
what `Encode` returns has sequence number `(s + i) mod 2^16`, the counter afterwards is
`(s + n) mod 2^16` for `n` returned packets, the encoder stays initialised, and a following call
of `Encode` continues the numbering. -/
theorem Encode_sequenceNumbers (e : Encoder) (aus : List Bytes) (pts : Int) (r : Ret)
    (hI : Initialised e) (h : Encode e aus pts = Except.ok r) :
    (∀ i p, r.1[i]? = some p → p.SequenceNumber = (e.sequenceNumber + i) % 65536) ∧
    r.2.2.sequenceNumber = (e.sequenceNumber + r.1.length) % 65536 ∧
    Initialised r.2.2 ∧
    ∀ (aus2 : List Bytes) (pts2 : Int) (r2 : Ret), Encode r.2.2 aus2 pts2 = Except.ok r2 →
      ∀ i p, r2.1[i]? = some p →
        p.SequenceNumber = (e.sequenceNumber + r.1.length + i) % 65536 := by
  have main : ∀ (e : Encoder) (aus : List Bytes) (pts : Int) (r : Ret),
      e.sequenceNumber < 65536 → Encode e aus pts = Except.ok r →
      (∀ i p, r.1[i]? = some p → p.SequenceNumber = (e.sequenceNumber + i) % 65536) ∧
      r.2.2.sequenceNumber = (e.sequenceNumber + r.1.length) % 65536 ∧
      r.2.2 = { e with sequenceNumber := r.2.2.sequenceNumber } := by
    intro e aus pts r hlt h
    have key := encodeLoop_inv
      (fun rets e1 => e1.sequenceNumber = (e.sequenceNumber + rets.length) % 65536 ∧
        e1 = { e with sequenceNumber := e1.sequenceNumber } ∧
        ∀ i p, rets[i]? = some p → p.SequenceNumber = (e.sequenceNumber + i) % 65536)
      (by
        intro rets e1 b pts1 w hP hw
        obtain ⟨hseq, hfr, hall⟩ := hP
        obtain ⟨-, ⟨hfr2, hadv⟩, ts, -, hhd⟩ := writeBatch_headers hw
        have hlt1 : e1.sequenceNumber < 65536 := by rw [hseq]; exact Nat.mod_lt _ (by norm_num)
        refine ⟨?_, ?_, ?_⟩
        · rw [hadv hlt1, hseq, List.length_append]
          omega
        · rw [hfr2, hfr]
        · intro i p hi
          by_cases hlen : i < rets.length
          · rw [List.getElem?_append_left hlen] at hi
            exact hall i p hi
          · rw [List.getElem?_append_right (not_lt.mp hlen)] at hi
            obtain ⟨-, -, -, -, -, h6⟩ := hhd _ p hi
            rw [h6 hlt1, hseq]
            omega)
      aus [] none pts e r h ⟨by simp; omega, rfl, by simp⟩
    exact ⟨key.1.2.2, key.1.1, key.1.2.1⟩
  obtain ⟨hlt, hInit⟩ : e.sequenceNumber < 65536 ∧ Initialised e := ⟨hI.2.1, hI⟩
  obtain ⟨m1, m2, m3⟩ := main e aus pts r hlt h
  have hlt2 : r.2.2.sequenceNumber < 65536 := by rw [m2]; exact Nat.mod_lt _ (by norm_num)
  refine ⟨m1, m2, ?_, ?_⟩
  · rw [m3]
    obtain ⟨i1, -, i3, i4, i5, i6, i7, i8, i9⟩ := hI
    exact ⟨i1, hlt2, i3, i4, i5, i6, i7, i8, i9⟩
  · intro aus2 pts2 r2 h2 i p hi
    rw [(main r.2.2 aus2 pts2 r2 hlt2 h2).1 i p hi, m2]
    omega

/-- Witness of `Encode_sequenceNumbers` on the two-unit example. -/
theorem Encode_sequenceNumbers_witness :
    Initialised smallEncoder ∧ Encode smallEncoder twoUnits 0 = Except.ok twoUnitsRet ∧
    twoUnitsRet.2.2.sequenceNumber = (smallEncoder.sequenceNumber + twoUnitsRet.1.length) % 65536 :=
  ⟨smallEncoder_initialised, Encode_twoUnits,
    (Encode_sequenceNumbers smallEncoder twoUnits 0 twoUnitsRet smallEncoder_initialised
      Encode_twoUnits).2.1⟩

/-! ## Marker, timestamp and the choice between fragmenting and aggregating -/

theorem Encode_single {e : Encoder} {au : Bytes} {pts : Int} {r : Ret}
    (h : Encode e [au] pts = Except.ok r) : writeBatch e [au] pts = Except.ok r := by
  have h2 : encodeLoop [] [] (some [au]) pts e = Except.ok r := by
    unfold Encode encodeLoop at h
    obtain ⟨l, -, h⟩ := bind_eq_ok h
    split at h
    · exact h
    · exact h
  unfold encodeLoop at h2
  obtain ⟨w, hw, h2⟩ := bind_eq_ok h2
  have hnone := (writeBatch_headers hw).1
  rw [afterWrite_eq hnone] at h2
  cases h2
  rw [show batchList (some [au]) = [au] from rfl] at hw
  rw [hw]
  obtain ⟨w1, w2, w3⟩ := w
  simp only at hnone
  subst hnone
  simp

/-- C3, counterexample: the two access units of `twoUnits` go into two batches, and each of the
two packets returned has Marker set, the earlier one too. -/
theorem Encode_marker_counterexample :
    twoUnits ≠ [] ∧
    (Encode smallEncoder twoUnits 0).map (fun r => r.1.map (fun p => p.Marker)) =
      Except.ok [true, true] := by
  refine ⟨by decide, ?_⟩
  rw [Encode_twoUnits]
  decide

/-- C5, counterexample: the two packets returned for `twoUnits` at presentation time 0 belong to
two batches and carry different timestamps (the second batch is stamped one second later, 1000
ticks at 1000 Hz). -/
theorem Encode_timestamp_counterexample :
    0 < smallEncoder.SampleRate ∧
    (Encode smallEncoder twoUnits 0).map (fun r => r.1.map (fun p => p.Timestamp)) =
      Except.ok [2289526357, 2289527357] := by
  refine ⟨by decide, ?_⟩
  rw [Encode_twoUnits]
  decide

/-- C5, amended: all packets of one batch (what one call of `writeBatch` returns: an aggregated
packet or all fragments of an access unit) carry the same Timestamp, the encoded presentation
time of the batch; in particular all packets that `Encode` returns for a single access unit
carry the encoded `pts`. -/
theorem writeBatch_timestamp (e : Encoder) (aus : List Bytes) (pts : Int) (r : Ret)
    (h : writeBatch e aus pts = Except.ok r) :
    ∃ ts, encodeTimestamp e pts = Except.ok ts ∧ (∀ p ∈ r.1, p.Timestamp = ts) ∧
      ∀ (au : Bytes) (r1 : Ret), Encode e [au] pts = Except.ok r1 →
        ∀ p ∈ r1.1, p.Timestamp = ts := by
  have hb : ∀ (aus : List Bytes) (r : Ret), writeBatch e aus pts = Except.ok r →
      ∃ ts, encodeTimestamp e pts = Except.ok ts ∧ ∀ p ∈ r.1, p.Timestamp = ts := by
    intro aus r h
    obtain ⟨-, -, ts, hts, hhd⟩ := writeBatch_headers h
    refine ⟨ts, hts, fun p hp => ?_⟩
    obtain ⟨j, hj⟩ := List.mem_iff_getElem?.mp hp
    exact (hhd j p hj).2.2.2.1
  obtain ⟨ts, hts, hall⟩ := hb aus r h
  refine ⟨ts, hts, hall, ?_⟩
  intro au r1 h1 p hp
  obtain ⟨ts1, hts1, hall1⟩ := hb [au] r1 (Encode_single h1)
  rw [hts] at hts1
  cases hts1
  exact hall1 p hp

/-- Witness of `writeBatch_timestamp`: the five fragments of `fiveBytes`. -/
theorem writeBatch_timestamp_witness :
    writeBatch smallEncoder [fiveBytes] 0 = Except.ok fiveBytesRet ∧
    ∃ ts, encodeTimestamp smallEncoder 0 = Except.ok ts ∧
      (∀ p ∈ fiveBytesRet.1, p.Timestamp = ts) ∧
      ∀ (au : Bytes) (r1 : Ret), Encode smallEncoder [au] 0 = Except.ok r1 →
        ∀ p ∈ r1.1, p.Timestamp = ts :=
  ⟨writeBatch_fiveBytes,
    writeBatch_timestamp smallEncoder [fiveBytes] 0 fiveBytesRet writeBatch_fiveBytes⟩

/-- C8, counterexample: a batch of one access unit whose length equals `PayloadMaxSize` (5) is
fragmented, into 5 packets, where `writeAggregated` would make one packet of it. -/
theorem writeBatch_mode_counterexample :
    (blen fiveBytes : Int) = smallEncoder.PayloadMaxSize ∧
    writeBatch smallEncoder [fiveBytes] 0 = writeFragmented smallEncoder fiveBytes 0 ∧
    (writeBatch smallEncoder [fiveBytes] 0).map (fun r => r.1.length) = Except.ok 5 ∧
    (writeAggregated smallEncoder [fiveBytes] 0).map (fun r => r.1.length) = Except.ok 1 := by
  refine ⟨by decide, by decide, by decide, by decide⟩

/-- C8, amended: a batch is fragmented if and only if it consists of exactly one access unit
whose length is at least `PayloadMaxSize` (one of length exactly `PayloadMaxSize` is
fragmented); every other batch is written by `writeAggregated`, as one packet. -/
theorem writeBatch_mode (e : Encoder) (aus : List Bytes) (pts : Int) :
    (∀ au, aus = [au] → e.PayloadMaxSize ≤ blen au →
      writeBatch e aus pts = writeFragmented e au pts) ∧
    ((∀ au, aus = [au] → (blen au : Int) < e.PayloadMaxSize) →
      writeBatch e aus pts = writeAggregated e aus pts ∧
      ∀ r, writeBatch e aus pts = Except.ok r → r.1.length = 1) := by
  constructor
  · intro au hau hle
    subst hau
    show (if (blen au : Int) < e.PayloadMaxSize then writeAggregated e [au] pts
      else writeFragmented e au pts) = writeFragmented e au pts
    rw [if_neg (not_lt.mpr hle)]
  · intro hall
    have heq : writeBatch e aus pts = writeAggregated e aus pts := by
      unfold writeBatch
      split
      · rename_i au
        rw [if_pos (hall au rfl)]
      · rfl
    refine ⟨heq, fun r hr => ?_⟩
    rw [heq] at hr
    exact (writeAggregated_headers hr).2.2.1

set_option maxRecDepth 100000 in
/-- Witness of `writeBatch_mode`: a single access unit as long as the limit is fragmented, one
of 4 bytes under a limit of 5 is aggregated. -/
theorem writeBatch_mode_witness :
    smallEncoder.PayloadMaxSize ≤ blen fiveBytes ∧
    writeBatch smallEncoder [fiveBytes] 0 = writeFragmented smallEncoder fiveBytes 0 ∧
    writeBatch smallEncoder [some [1, 2, 3, 4]] 0 =
      writeAggregated smallEncoder [some [1, 2, 3, 4]] 0 :=
  ⟨by decide,
    (writeBatch_mode smallEncoder [fiveBytes] 0).1 fiveBytes rfl (by decide),
    ((writeBatch_mode smallEncoder [some [1, 2, 3, 4]] 0).2
      (fun au hau => by
        have h1 : au = some [1, 2, 3, 4] := by
          injection hau with h1 h2
          exact h1.symm
        subst h1
        decide)).1⟩

/-! ## Payload size, fragmentation, payload layout -/

theorem Encode_single_of_ok {e : Encoder} (hD : DefaultLengths e) {au : Bytes} {pts : Int}
    {r : Ret} (h : writeBatch e [au] pts = Except.ok r) (hnone : r.2.1 = none) :
    Encode e [au] pts = Except.ok r := by
  have h2 : encodeLoop [] [] (some [au]) pts e = Except.ok r := by
    unfold encodeLoop
    rw [show batchList (some [au]) = [au] from rfl, h]
    simp only [bind, Except.bind]
    rw [afterWrite_eq hnone]
    obtain ⟨r1, r2, r3⟩ := r
    simp only at hnone
    subst hnone
    simp [pure, Except.pure]
  unfold Encode encodeLoop
  rw [lenAggregated_default hD]
  simp only [bind, Except.bind]
  split
  · exact h2
  · exact h2

set_option maxRecDepth 1000000 in
/-- C1, failing input: with a payload limit of 5 a single access unit of 2 bytes is written as
one aggregated packet of 6 payload bytes; with the default limit of 1460 a single access unit of
1458 bytes is written as one packet of 1462 payload bytes. -/
theorem Encode_payload_exceeds_limit :
    Initialised smallEncoder ∧ DefaultLengths smallEncoder ∧
    smallEncoder.PayloadMaxSize = 5 ∧ 0 < smallEncoder.SampleRate ∧
    (Encode smallEncoder [some [1, 2]] 0).map (fun r => r.1.map (fun p => p.Payload)) =
      Except.ok [[0, 16, 0, 16, 1, 2]] ∧
    DefaultLengths defaultEncoder ∧ defaultEncoder.PayloadMaxSize = 1460 ∧
    (Encode defaultEncoder [some (List.replicate 1458 7)] 0).map
      (fun r => r.1.map (fun p => p.Payload.length)) = Except.ok [1462] := by
  refine ⟨smallEncoder_initialised, smallEncoder_defaultLengths, by decide, by decide,
    by decide, ⟨rfl, rfl, rfl⟩, by decide, by decide⟩

set_option maxRecDepth 100000 in
/-- C2, failing input: with a payload limit of 5 (`auMaxSize` 1) an access unit of 5 bytes is
split into 5 fragments that carry 1, 1, 1, 1 and 0 bytes; the bytes of the fragments put
together are the first 4 bytes of the access unit, the fifth is lost. -/
theorem Encode_fragments_drop_tail :
    Initialised smallEncoder ∧ DefaultLengths smallEncoder ∧
    smallEncoder.PayloadMaxSize - 2 - 2 = 1 ∧
    (Encode smallEncoder [fiveBytes] 0).map (fun r => r.1.map (fun p => p.Payload)) =
      Except.ok [[0, 16, 0, 8, 1], [0, 16, 0, 8, 2], [0, 16, 0, 8, 3], [0, 16, 0, 8, 4],
        [0, 16, 0, 0]] ∧
    (Encode smallEncoder [fiveBytes] 0).map
        (fun r => (r.1.map (fun p => p.Payload.drop 4)).flatten) = Except.ok [1, 2, 3, 4] ∧
    bdata fiveBytes = [1, 2, 3, 4, 5] := by
  refine ⟨smallEncoder_initialised, smallEncoder_defaultLengths, by decide, by decide,
    by decide, by decide⟩

/-- C9: under the default lengths the payload of the one packet that `writeAggregated` makes of
a batch of `k ≥ 1` access units, each shorter than `2^13` and with `16 * k < 2^16`, is the
big-endian 16-bit value `16 * k`, then per access unit the big-endian 16-bit value `len * 8`,
then the access units themselves, in order. -/
theorem writeAggregated_payload (e : Encoder) (aus : List Bytes) (pts : Int)
    (hI : Initialised e) (hD : DefaultLengths e) (hk : 1 ≤ aus.length)
    (hlen : ∀ a ∈ aus, blen a < 2 ^ 13) (h16 : 16 * aus.length < 2 ^ 16) :
    (writeAggregated e aus pts).map (fun r => r.1.map (fun p => p.Payload)) =
      Except.ok [be16 (16 * aus.length) ++ auHeaders aus ++ auData aus] := by
  obtain ⟨-, -, -, ⟨ssrc, hs, -⟩, -, ⟨it, hit, -⟩, -⟩ := hI
  rw [writeAggregated_default hD (encodeTimestamp_ok hit pts) hs aus
    (fun a ha => by have := hlen a ha; omega)]
  rw [show 16 * aus.length % 65536 = 16 * aus.length from Nat.mod_eq_of_lt (by omega)]
  rfl

set_option maxRecDepth 100000 in
/-- Witness of `writeAggregated_payload` on the two-unit example. -/
theorem writeAggregated_payload_witness :
    Initialised smallEncoder ∧ DefaultLengths smallEncoder ∧ 1 ≤ twoUnits.length ∧
    (writeAggregated smallEncoder twoUnits 0).map (fun r => r.1.map (fun p => p.Payload)) =
      Except.ok [[0, 32, 0, 8, 0, 8, 1, 2]] :=
  ⟨smallEncoder_initialised, smallEncoder_defaultLengths, by decide,
    (writeAggregated_payload smallEncoder twoUnits 0 smallEncoder_initialised
      smallEncoder_defaultLengths (by decide) (by decide) (by decide)).trans (by decide)⟩

/-- C10: under the default lengths and a payload limit from 5 to 8195, every packet that
`writeFragmented` returns has as payload the bytes 0x00 0x10, the 16-bit AU-header `size * 8`
(13-bit AU-size, 3-bit index 0) where `size` is the number of bytes of the access unit that the
packet carries, and those bytes; the payload is 4 bytes longer than the chunk.  A single access
unit at least as long as the limit goes through `writeFragmented`. -/
theorem writeFragmented_headers_layout (e : Encoder) (au : Bytes) (pts : Int)
    (hI : Initialised e) (hD : DefaultLengths e) (h5 : 5 ≤ e.PayloadMaxSize)
    (h8 : e.PayloadMaxSize ≤ 8195) :
    ∃ r, writeFragmented e au pts = Except.ok r ∧
      (e.PayloadMaxSize ≤ blen au → Encode e [au] pts = Except.ok r) ∧
      ∀ j p, r.1[j]? = some p → ∃ c : List Nat,
        c = ((bdata au).drop (j * (e.PayloadMaxSize - 4).toNat)).take
          (if j + 1 = r.1.length then blen au % (e.PayloadMaxSize - 4).toNat
           else (e.PayloadMaxSize - 4).toNat) ∧
        c.length < 2 ^ 13 ∧
        p.Payload = [0, 16] ++ be16 (c.length * 8 + 0) ++ c ∧
        p.Payload.length = 4 + c.length := by
  obtain ⟨-, -, -, ⟨ssrc, hs, -⟩, -, ⟨it, hit, -⟩, -⟩ := hI
  obtain ⟨r, hr, hnone, hlen, hp⟩ := writeFragmented_default hD hs hit h5 au pts
  refine ⟨r, hr, ?_, ?_⟩
  · intro hle
    refine Encode_single_of_ok hD ?_ hnone
    show (if (blen au : Int) < e.PayloadMaxSize then writeAggregated e [au] pts
      else writeFragmented e au pts) = Except.ok r
    rw [if_neg (not_lt.mpr hle)]
    exact hr
  · intro j p hj
    have h := hp j p hj
    refine ⟨_, rfl, ?_, ?_, ?_⟩
    · rw [List.length_take]
      have hmod : blen au % (e.PayloadMaxSize - 4).toNat < (e.PayloadMaxSize - 4).toNat :=
        Nat.mod_lt _ (by omega)
      split_ifs <;> omega
    · have hlt : ((List.drop (j * (e.PayloadMaxSize - 4).toNat) (bdata au)).take
          (if j + 1 = r.1.length then blen au % (e.PayloadMaxSize - 4).toNat
           else (e.PayloadMaxSize - 4).toNat)).length < 8192 := by
        rw [List.length_take]
        have hmod : blen au % (e.PayloadMaxSize - 4).toNat < (e.PayloadMaxSize - 4).toNat :=
          Nat.mod_lt _ (by omega)
        split_ifs <;> omega
      rw [h, Nat.mod_eq_of_lt hlt]
      rfl
    · rw [h]
      simp [be16]
      omega

set_option maxRecDepth 100000 in
/-- Witness of `writeFragmented_headers_layout`: the 5-byte access unit under a limit of 5. -/
theorem writeFragmented_headers_layout_witness :
    Initialised smallEncoder ∧ DefaultLengths smallEncoder ∧ 5 ≤ smallEncoder.PayloadMaxSize ∧
    smallEncoder.PayloadMaxSize ≤ 8195 ∧
    ∃ r, writeFragmented smallEncoder fiveBytes 0 = Except.ok r ∧
      (smallEncoder.PayloadMaxSize ≤ blen fiveBytes →
        Encode smallEncoder [fiveBytes] 0 = Except.ok r) ∧
      ∀ j p, r.1[j]? = some p → ∃ c : List Nat,
        c = ((bdata fiveBytes).drop (j * (smallEncoder.PayloadMaxSize - 4).toNat)).take
          (if j + 1 = r.1.length then blen fiveBytes % (smallEncoder.PayloadMaxSize - 4).toNat
           else (smallEncoder.PayloadMaxSize - 4).toNat) ∧
        c.length < 2 ^ 13 ∧
        p.Payload = [0, 16] ++ be16 (c.length * 8 + 0) ++ c ∧
        p.Payload.length = 4 + c.length :=
  ⟨smallEncoder_initialised, smallEncoder_defaultLengths, by decide, by decide,
    writeFragmented_headers_layout smallEncoder fiveBytes 0 smallEncoder_initialised
      smallEncoder_defaultLengths (by decide) (by decide)⟩

/-! ## The timestamp -/

set_option maxRecDepth 100000 in
/-- C6, counterexample: at 1000 Hz a presentation time of 750000 ns is 0.75 ticks; the code
discards the fraction and returns the initial timestamp 2289526357, where rounding to nearest
gives 2289526358. -/
theorem encodeTimestamp_counterexample :
    (0 : Int) ≤ 750000 ∧ smallEncoder.SampleRate = 1000 ∧
    smallEncoder.InitialTimestamp = some 2289526357 ∧
    encodeTimestamp smallEncoder 750000 = Except.ok 2289526357 ∧
    specTimestamp 2289526357 1000 750000 = 2289526358 := by
  refine ⟨by decide, by decide, by decide, by decide, by decide⟩

theorem F64.floor_abs (m : Nat) (x : Int) :
    Int.floor ((m : ℚ) * (2 : ℚ) ^ x) = ((m * 2 ^ x.toNat / 2 ^ (-x).toNat : Nat) : Int) := by
  rcases Int.eq_nat_or_neg x with ⟨k, hk | hk⟩
  · subst hk
    have h1 : (-(k : Int)).toNat = 0 := by omega
    rw [Int.toNat_natCast, h1, pow_zero, Nat.div_one, zpow_natCast]
    have : (m : ℚ) * (2 : ℚ) ^ k = ((m * 2 ^ k : Nat) : ℚ) := by push_cast; ring
    rw [this, Int.floor_natCast]
  · subst hk
    have h1 : (-(k : Int)).toNat = 0 := by omega
    rw [h1, neg_neg, Int.toNat_natCast, pow_zero, Nat.mul_one, zpow_neg, zpow_natCast]
    have : (m : ℚ) * ((2 : ℚ) ^ k)⁻¹ = (m : ℚ) / ((2 ^ k : Nat) : ℚ) := by
      push_cast
      rw [div_eq_mul_inv]
    rw [this, Rat.floor_natCast_div_natCast]
    norm_cast

theorem F64.toUint32_eq_truncRat (a : F64) :
    F64.toUint32 a = (truncRat (F64.toRat a) % 4294967296).toNat := by
  have hx : (0 : ℚ) ≤ (a.mant : ℚ) * (2 : ℚ) ^ a.exp :=
    mul_nonneg (Nat.cast_nonneg _) (zpow_nonneg (by norm_num) _)
  have hfl := F64.floor_abs a.mant a.exp
  unfold F64.toUint32 F64.toRat truncRat
  cases hneg : a.neg with
  | false =>
    simp only [Bool.false_eq_true, if_false, one_mul]
    rw [if_pos hx, hfl]
  | true =>
    simp only [if_true, neg_one_mul]
    by_cases h0 : (0 : ℚ) ≤ -((a.mant : ℚ) * (2 : ℚ) ^ a.exp)
    · have hz : (a.mant : ℚ) * (2 : ℚ) ^ a.exp = 0 := le_antisymm (by linarith) hx
      rw [if_pos h0]
      rw [hz] at hfl
      rw [hz, neg_zero, Int.floor_zero]
      rw [Int.floor_zero] at hfl
      rw [← hfl]
      rfl
    · rw [if_neg h0, Int.ceil_neg, hfl]

theorem truncRat_of_mem {q : ℚ} {n : Nat} (h1 : (n : ℚ) ≤ q) (h2 : q < n + 1) :
    truncRat q = n := by
  unfold truncRat
  rw [if_pos (le_trans (Nat.cast_nonneg n) h1)]
  rw [Int.floor_eq_iff]
  exact ⟨by exact_mod_cast h1, by exact_mod_cast h2⟩

/-- C6, amended: on an initialised encoder `encodeTimestamp` adds to `InitialTimestamp`, modulo
`2^32`, the float64 product of the seconds and the sample rate with its fraction discarded, for
every presentation time: when the product has a value `q` with `n ≤ q < n + 1` for a natural
number `n < 2^32`, the result is `(InitialTimestamp + n) mod 2^32`, never the nearest integer
above.  For a presentation time of 0 the result is `InitialTimestamp`; for a whole number `S`
of seconds, a sample rate `R ≥ 0` and `S * R < 2^32` it is `(InitialTimestamp + S * R) mod 2^32`. -/
theorem encodeTimestamp_truncation (e : Encoder) (hI : Initialised e) :
    ∃ it, e.InitialTimestamp = some it ∧
      (∀ pts : Int, encodeTimestamp e pts = Except.ok
        ((it + (truncRat (F64.toRat (F64.mul (Seconds pts) (F64.ofInt e.SampleRate)))
          % 4294967296).toNat) % 4294967296)) ∧
      (∀ (pts : Int) (n : Nat),
        (n : ℚ) ≤ F64.toRat (F64.mul (Seconds pts) (F64.ofInt e.SampleRate)) →
        F64.toRat (F64.mul (Seconds pts) (F64.ofInt e.SampleRate)) < n + 1 →
        n < 4294967296 → encodeTimestamp e pts = Except.ok ((it + n) % 4294967296)) ∧
      encodeTimestamp e 0 = Except.ok it ∧
      ∀ S R : Nat, e.SampleRate = (R : Int) → S * 1000000000 < 2 ^ 63 → S * R < 2 ^ 32 →
        encodeTimestamp e ((S : Int) * 1000000000) = Except.ok ((it + S * R) % 4294967296) := by
  obtain ⟨-, -, -, -, -, ⟨it, hit, hlt⟩, -⟩ := hI
  have hgen : ∀ pts : Int, encodeTimestamp e pts = Except.ok
      ((it + (truncRat (F64.toRat (F64.mul (Seconds pts) (F64.ofInt e.SampleRate)))
        % 4294967296).toNat) % 4294967296) := by
    intro pts
    rw [encodeTimestamp_ok hit, F64.toUint32_eq_truncRat]
  refine ⟨it, hit, hgen, ?_, encodeTimestamp_zero hit hlt, ?_⟩
  · intro pts n h1 h2 hn
    rw [hgen, truncRat_of_mem h1 h2]
    congr 2
    omega
  · intro S R hR hS hSR
    exact encodeTimestamp_whole hit S R hR (by omega) hSR

set_option maxRecDepth 100000 in
/-- Witness of `encodeTimestamp_truncation`: at 1000 Hz a presentation time of 1900000 ns gives
the float64 product 8556839292003942 * 2^-52, between 1 and 2 (about 1.9), and 1 tick is added,
where rounding to nearest adds 2; 2 seconds are 2000 ticks. -/
theorem encodeTimestamp_truncation_witness :
    Initialised smallEncoder ∧ smallEncoder.SampleRate = ((1000 : Nat) : Int) ∧
    F64.mul (Seconds 1900000) (F64.ofInt smallEncoder.SampleRate) =
      ⟨false, 8556839292003942, -52⟩ ∧
    encodeTimestamp smallEncoder 1900000 = Except.ok 2289526358 ∧
    specTimestamp 2289526357 1000 1900000 = 2289526359 ∧
    2 * 1000000000 < 2 ^ 63 ∧ 2 * 1000 < 2 ^ 32 ∧
    encodeTimestamp smallEncoder 0 = Except.ok 2289526357 ∧
    encodeTimestamp smallEncoder (((2 : Nat) : Int) * 1000000000) = Except.ok 2289528357 := by
  obtain ⟨it, hit, -, htr, h0, h⟩ :=
    encodeTimestamp_truncation smallEncoder smallEncoder_initialised
  have hit2 : it = 2289526357 := by
    have h1 : smallEncoder.InitialTimestamp = some 2289526357 := rfl
    rw [h1] at hit
    exact (Option.some.inj hit).symm
  subst hit2
  have hprod : F64.mul (Seconds 1900000) (F64.ofInt smallEncoder.SampleRate) =
      ⟨false, 8556839292003942, -52⟩ := by decide
  have hq := htr 1900000 1
    (by rw [hprod]; unfold F64.toRat; norm_num)
    (by rw [hprod]; unfold F64.toRat; norm_num) (by norm_num)
  exact ⟨smallEncoder_initialised, rfl, hprod, hq, by decide, by norm_num, by norm_num, h0,
    h 2 1000 rfl (by norm_num) (by norm_num)⟩


/-! ## Init -/

/-- C11: `Init` changes only absent fields.  `PayloadType` and `SampleRate` are unchanged; a
non-nil `SSRC`, `InitialSequenceNumber`, `InitialTimestamp`, `SizeLength`, `IndexLength`,
`IndexDeltaLength` and a non-zero `PayloadMaxSize` keep their values; a zero `PayloadMaxSize`
becomes 1460, absent lengths become 13/3/3, an absent `SSRC`, `InitialSequenceNumber`,
`InitialTimestamp` is set to the value drawn from the random source; afterwards the running
counter is the value of `InitialSequenceNumber`. -/
theorem Init_frame (e : Encoder) (rSSRC rSeq rTs : Nat) :
    (Init e rSSRC rSeq rTs).PayloadType = e.PayloadType ∧
    (Init e rSSRC rSeq rTs).SampleRate = e.SampleRate ∧
    (∀ v, e.SSRC = some v → (Init e rSSRC rSeq rTs).SSRC = some v) ∧
    (∀ v, e.InitialSequenceNumber = some v →
      (Init e rSSRC rSeq rTs).InitialSequenceNumber = some v) ∧
    (∀ v, e.InitialTimestamp = some v → (Init e rSSRC rSeq rTs).InitialTimestamp = some v) ∧
    (∀ v, e.SizeLength = some v → (Init e rSSRC rSeq rTs).SizeLength = some v) ∧
    (∀ v, e.IndexLength = some v → (Init e rSSRC rSeq rTs).IndexLength = some v) ∧
    (∀ v, e.IndexDeltaLength = some v → (Init e rSSRC rSeq rTs).IndexDeltaLength = some v) ∧
    (e.PayloadMaxSize ≠ 0 → (Init e rSSRC rSeq rTs).PayloadMaxSize = e.PayloadMaxSize) ∧
    (e.PayloadMaxSize = 0 → (Init e rSSRC rSeq rTs).PayloadMaxSize = 1460) ∧
    (e.SizeLength = none → (Init e rSSRC rSeq rTs).SizeLength = some 13) ∧
    (e.IndexLength = none → (Init e rSSRC rSeq rTs).IndexLength = some 3) ∧
    (e.IndexDeltaLength = none → (Init e rSSRC rSeq rTs).IndexDeltaLength = some 3) ∧
    (e.SSRC = none → (Init e rSSRC rSeq rTs).SSRC = some (rSSRC % 4294967296)) ∧
    (e.InitialSequenceNumber = none →
      (Init e rSSRC rSeq rTs).InitialSequenceNumber = some (rSeq % 4294967296 % 65536)) ∧
    (e.InitialTimestamp = none →
      (Init e rSSRC rSeq rTs).InitialTimestamp = some (rTs % 4294967296)) ∧
    (Init e rSSRC rSeq rTs).InitialSequenceNumber = some (Init e rSSRC rSeq rTs).sequenceNumber := by
  refine ⟨rfl, rfl, ?_, ?_, ?_, ?_, ?_, ?_, ?_, ?_, ?_, ?_, ?_, ?_, ?_, ?_, ?_⟩
  · intro v h
    simp [Init, h]
  · intro v h
    simp [Init, h]
  · intro v h
    simp [Init, h]
  · intro v h
    simp [Init, h]
  · intro v h
    simp [Init, h]
  · intro v h
    simp [Init, h]
  · intro h
    simp [Init, h]
  · intro h
    simp [Init, h]
  · intro h
    simp [Init, h]
  · intro h
    simp [Init, h]
  · intro h
    simp [Init, h]
  · intro h
    simp [Init, h]
  · intro h
    simp [Init, h]
  · intro h
    simp [Init, h]
  · cases h : e.InitialSequenceNumber <;> simp [Init, h]

/-- Witness of `Init_frame`: a configuration with every optional field absent, and one with a
caller-supplied SSRC. -/
theorem Init_frame_witness :
    blankEncoder.SSRC = none ∧ blankEncoder.PayloadMaxSize = 0 ∧
    (Init blankEncoder 7 70000 9).SSRC = some 7 ∧
    (Init blankEncoder 7 70000 9).PayloadMaxSize = 1460 ∧
    (Init blankEncoder 7 70000 9).InitialSequenceNumber =
      some (Init blankEncoder 7 70000 9).sequenceNumber ∧
    (Init { blankEncoder with SSRC := some 5 } 7 70000 9).SSRC = some 5 :=
  ⟨rfl, rfl,
    (Init_frame blankEncoder 7 70000 9).2.2.2.2.2.2.2.2.2.2.2.2.2.1 rfl,
    (Init_frame blankEncoder 7 70000 9).2.2.2.2.2.2.2.2.2.1 rfl,
    (Init_frame blankEncoder 7 70000 9).2.2.2.2.2.2.2.2.2.2.2.2.2.2.2.2,
    (Init_frame { blankEncoder with SSRC := some 5 } 7 70000 9).2.2.1 5 rfl⟩

/-- C12: `Init` is idempotent: a second call right after a first one, whatever the random source
returns, leaves every field of the encoder, the running counter included, as the first call set
it. -/
theorem Init_idempotent (e : Encoder) (rSSRC rSeq rTs rSSRC2 rSeq2 rTs2 : Nat) :
    Init (Init e rSSRC rSeq rTs) rSSRC2 rSeq2 rTs2 = Init e rSSRC rSeq rTs := by
  obtain ⟨pt, ssrc, isn, it, pms, sr, sl, il, idl, sn⟩ := e
  cases ssrc <;> cases isn <;> cases it <;> cases sl <;> cases il <;> cases idl <;>
    by_cases hp : pms = 0 <;> simp [Init, hp]

/-! ## The empty list of access units -/

theorem writeAggregated_nil {e : Encoder} {ts ssrc : Nat} {pts : Int}
    (hts : encodeTimestamp e pts = Except.ok ts) (hs : e.SSRC = some ssrc) :
    writeAggregated e [] pts = Except.ok
      ([{ Version := rtpVersion, PayloadType := e.PayloadType,
          SequenceNumber := e.sequenceNumber, Timestamp := ts, SSRC := ssrc, Marker := true,
          Payload := [0, 0] }], none,
        { e with sequenceNumber := (e.sequenceNumber + 1) % 65536 }) := by
  have hd : deref e.SSRC = Except.ok ssrc := by
    rw [hs]
    rfl
  unfold writeAggregated
  simp only [lenAggregated, lenAggregatedLoop, aggHeaderLoop, aggCopyLoop, bind, Except.bind,
    pure, Except.pure, hts, hd]
  rfl

/-- C20: on an initialised encoder `Encode` of the empty list returns a nil error and exactly
one packet, with payload 0x00 0x00, Marker set and the current counter as sequence number; the
counter is advanced by one (modulo `2^16`). -/
theorem Encode_empty (e : Encoder) (pts : Int) (hI : Initialised e) :
    ∃ ts ssrc, encodeTimestamp e pts = Except.ok ts ∧ e.SSRC = some ssrc ∧
      Encode e [] pts = Except.ok
        ([{ Version := rtpVersion, PayloadType := e.PayloadType,
            SequenceNumber := e.sequenceNumber, Timestamp := ts, SSRC := ssrc, Marker := true,
            Payload := [0, 0] }], none,
          { e with sequenceNumber := (e.sequenceNumber + 1) % 65536 }) := by
  obtain ⟨-, -, -, ⟨ssrc, hs, -⟩, -, ⟨it, hit, -⟩, -⟩ := hI
  refine ⟨_, ssrc, encodeTimestamp_ok hit pts, hs, ?_⟩
  unfold Encode encodeLoop
  rw [show batchList none = [] from rfl,
    show writeBatch e [] pts = writeAggregated e [] pts from rfl,
    writeAggregated_nil (encodeTimestamp_ok hit pts) hs]
  rfl

set_option maxRecDepth 100000 in
/-- Witness of `Encode_empty` on the small encoder. -/
theorem Encode_empty_witness :
    Initialised smallEncoder ∧
    (Encode smallEncoder [] 0).map (fun r => r.1.map (fun p => (p.Payload, p.Marker))) =
      Except.ok [([0, 0], true)] := by
  refine ⟨smallEncoder_initialised, ?_⟩
  obtain ⟨ts, ssrc, -, -, h⟩ := Encode_empty smallEncoder 0 smallEncoder_initialised
  rw [h]
  rfl

/-! ## Aggregated packets of access units of any length -/

theorem auHeadersMod_length (aus : List Bytes) : (auHeadersMod aus).length = 2 * aus.length := by
  induction aus with
  | nil => rfl
  | cons a rest ih => simp [auHeadersMod, be16, ih]; omega

theorem aggHeaderLoop_default_mod {e : Encoder} (hD : DefaultLengths e) :
    ∀ (aus : List Bytes) (i : Nat) (out : List Nat) (written : Int),
      aggHeaderLoop e aus i ⟨out, 0, 0⟩ written =
        Except.ok (⟨out ++ auHeadersMod aus, 0, 0⟩, written + 16 * aus.length) := by
  intro aus
  induction aus with
  | nil =>
    intro i out written
    simp [aggHeaderLoop, auHeadersMod, pure, Except.pure]
  | cons a rest ih =>
    intro i out written
    have hv : blen a % 2 ^ 64 % 8192 = blen a % 8192 := by omega
    have h13 : ((13 : Int) % 256).toNat = 13 := by decide
    have h3 : ((3 : Int) % 256).toNat = 3 := by decide
    obtain ⟨h1, h2, h4⟩ := hD
    unfold aggHeaderLoop
    rw [h1, h2, h4]
    simp only [deref, bind, Except.bind, h13, h3]
    rw [writeBits_13_3, hv]
    have hrest := ih (i + 1) (out ++ be16 (blen a % 8192 * 8)) (written + 13 + 3)
    simp only [be16] at hrest
    split
    · rw [hrest]
      simp only [auHeadersMod, be16, List.length_cons, List.append_assoc]
      congr 2
      push_cast
      ring
    · rw [hrest]
      simp only [auHeadersMod, be16, List.length_cons, List.append_assoc]
      congr 2
      push_cast
      ring

theorem writeAggregated_default_mod {e : Encoder} (hD : DefaultLengths e) {ts ssrc : Nat}
    {pts : Int} (hts : encodeTimestamp e pts = Except.ok ts) (hs : e.SSRC = some ssrc)
    (aus : List Bytes) :
    writeAggregated e aus pts = Except.ok
      ([{ Version := rtpVersion, PayloadType := e.PayloadType,
          SequenceNumber := e.sequenceNumber, Timestamp := ts, SSRC := ssrc, Marker := true,
          Payload := be16 (16 * aus.length % 65536) ++ auHeadersMod aus ++ auData aus }], none,
        { e with sequenceNumber := (e.sequenceNumber + 1) % 65536 }) := by
  unfold writeAggregated
  rw [lenAggregated_default hD]
  simp only [bind, Except.bind]
  rw [if_neg (by omega), if_neg (by omega)]
  have hh := aggHeaderLoop_default_mod hD aus 0 [] 0
  rw [show BitWriter.new = ⟨[], 0, 0⟩ from rfl, hh]
  simp only [List.nil_append, BitWriter.close, lt_irrefl, if_false, zero_add]
  have hn : (2 + 2 * (aus.length : Int) + (totalLen aus : Int)).toNat
      = 2 + ((auHeadersMod aus).length + totalLen aus) := by
    rw [auHeadersMod_length]
    omega
  rw [hn]
  have h0 : List.replicate (2 + ((auHeadersMod aus).length + totalLen aus)) 0
      = [0, 0] ++ List.replicate ((auHeadersMod aus).length + totalLen aus) 0 := by
    rw [List.replicate_add]
    rfl
  rw [h0, show (2 : Nat) = ([0, 0] : List Nat).length from rfl, copyAt_zeros]
  have hv : (16 * (aus.length : Int) % 65536).toNat = 16 * aus.length % 65536 := by omega
  rw [hv]
  have hp : putUint16 ([0, 0] ++ auHeadersMod aus ++ List.replicate (totalLen aus) 0)
      (16 * aus.length % 65536)
      = (be16 (16 * aus.length % 65536) ++ auHeadersMod aus) ++ List.replicate (totalLen aus) 0 := by
    have := putUint16_cons 0 0 (auHeadersMod aus ++ List.replicate (totalLen aus) 0)
      (16 * aus.length % 65536) (Nat.mod_lt _ (by norm_num))
    simpa using this
  rw [hp]
  have hpos : (2 : Int) + (16 * (aus.length : Int)).tdiv 8
      = ((be16 (16 * aus.length % 65536) ++ auHeadersMod aus).length : Nat) := by
    rw [Int.tdiv_eq_ediv (by omega) (by omega)]
    simp only [List.length_append, auHeadersMod_length, be16, List.length_cons, List.length_nil]
    push_cast
    omega
  rw [hpos, aggCopyLoop_zeros]
  simp only [hts, hs, deref]
  rfl


/-! ## Encode runs without a fault -/

theorem ready_of_initialised {e : Encoder} (hI : Initialised e) (hD : DefaultLengths e)
    (h5 : 5 ≤ e.PayloadMaxSize) : Ready e := by
  obtain ⟨-, -, -, ⟨ssrc, hs, -⟩, -, ⟨it, hit, -⟩, -⟩ := hI
  exact ⟨hD, ⟨ssrc, hs⟩, ⟨it, hit⟩, h5⟩

theorem ready_of_advanced {e1 e2 : Encoder} {n : Nat} (hR : Ready e1) (h : Advanced e1 e2 n) :
    Ready e2 ∧ e2.SampleRate = e1.SampleRate ∧ e2.PayloadMaxSize = e1.PayloadMaxSize := by
  obtain ⟨h1, -⟩ := h
  rw [h1]
  exact ⟨hR, rfl, rfl⟩

/-- A batch that `writeBatch` hands to `writeFragmented`: one access unit, not shorter than the
payload limit. -/
theorem writeBatch_fragmented {e : Encoder} (a : Bytes) (pts : Int)
    (h : e.PayloadMaxSize ≤ blen a) : writeBatch e [a] pts = writeFragmented e a pts := by
  show (if (blen a : Int) < e.PayloadMaxSize then writeAggregated e [a] pts
    else writeFragmented e a pts) = writeFragmented e a pts
  rw [if_neg (not_lt.mpr h)]

/-- Every other batch goes to `writeAggregated`. -/
theorem writeBatch_aggregated {e : Encoder} (b : List Bytes) (pts : Int)
    (h : ∀ a, b = [a] → (blen a : Int) < e.PayloadMaxSize) :
    writeBatch e b pts = writeAggregated e b pts := by
  unfold writeBatch
  split
  · rename_i a
    rw [if_pos (h a rfl)]
  · rfl

theorem writeBatch_total {e : Encoder} (hR : Ready e) (b : List Bytes) (pts : Int) :
    ∃ w, writeBatch e b pts = Except.ok w := by
  obtain ⟨hD, ⟨ssrc, hs⟩, ⟨it, hit⟩, h5⟩ := hR
  by_cases hf : ∃ a, b = [a] ∧ e.PayloadMaxSize ≤ blen a
  · obtain ⟨a, hb, hle⟩ := hf
    subst hb
    rw [writeBatch_fragmented a pts hle]
    obtain ⟨r, hr, -⟩ := writeFragmented_default hD hs hit h5 a pts
    exact ⟨r, hr⟩
  · rw [writeBatch_aggregated b pts (fun a hb => by
      by_contra hlt
      exact hf ⟨a, hb, not_lt.mp hlt⟩)]
    exact ⟨_, writeAggregated_default_mod hD (encodeTimestamp_ok hit pts) hs b⟩

theorem encodeLoop_total :
    ∀ (aus : List Bytes) (rets : List Packet) (batch : Option (List Bytes)) (pts : Int)
      (e : Encoder), Ready e → e.SampleRate ≠ 0 →
      ∃ r, encodeLoop aus rets batch pts e = Except.ok r := by
  intro aus
  induction aus with
  | nil =>
    intro rets batch pts e hR _
    obtain ⟨w, hw⟩ := writeBatch_total hR (batchList batch) pts
    unfold encodeLoop
    rw [hw]
    simp only [bind, Except.bind]
    rw [afterWrite_eq (writeBatch_headers hw).1]
    exact ⟨_, rfl⟩
  | cons au rest ih =>
    intro rets batch pts e hR hsr
    unfold encodeLoop
    rw [lenAggregated_default hR.1]
    simp only [bind, Except.bind]
    split
    · exact ih _ _ _ _ hR hsr
    · split
      · rename_i b hgt
        obtain ⟨w, hw⟩ := writeBatch_total hR b pts
        rw [hw]
        simp only []
        obtain ⟨hnone, hadv, -⟩ := writeBatch_headers hw
        rw [afterWrite_eq hnone]
        obtain ⟨hR2, hsr2, -⟩ := ready_of_advanced hR hadv
        rw [if_neg (by rw [hsr2]; exact hsr)]
        exact ih _ _ _ _ hR2 (by rw [hsr2]; exact hsr)
      · exact ih _ _ _ _ hR hsr

theorem Encode_err_none {e : Encoder} {aus : List Bytes} {pts : Int} {r : Ret}
    (h : Encode e aus pts = Except.ok r) : r.2.1 = none :=
  (encodeLoop_inv (fun _ _ => True) (fun _ _ _ _ _ _ _ => trivial) aus [] none pts e r h
    trivial).2

/-- C18: on an initialised encoder with the default lengths, a payload limit of at least 5 and
a positive sample rate, `Encode` returns for every list of access units, without a run-time
fault, and the error it returns is nil. -/
theorem Encode_no_fault (e : Encoder) (aus : List Bytes) (pts : Int) (hI : Initialised e)
    (hD : DefaultLengths e) (h5 : 5 ≤ e.PayloadMaxSize) (hsr : 0 < e.SampleRate) :
    ∃ pkts e1, Encode e aus pts = Except.ok (pkts, none, e1) := by
  obtain ⟨r, hr⟩ := encodeLoop_total aus [] none pts e (ready_of_initialised hI hD h5)
    (by omega)
  have hnone := Encode_err_none hr
  obtain ⟨pkts, err, e1⟩ := r
  simp only at hnone
  subst hnone
  exact ⟨pkts, e1, hr⟩

set_option maxRecDepth 100000 in
/-- Witness of `Encode_no_fault` on the two-unit example. -/
theorem Encode_no_fault_witness :
    Initialised smallEncoder ∧ DefaultLengths smallEncoder ∧ 5 ≤ smallEncoder.PayloadMaxSize ∧
    0 < smallEncoder.SampleRate ∧
    ∃ pkts e1, Encode smallEncoder twoUnits 0 = Except.ok (pkts, none, e1) :=
  ⟨smallEncoder_initialised, smallEncoder_defaultLengths, by decide, by decide,
    Encode_no_fault smallEncoder twoUnits 0 smallEncoder_initialised
      smallEncoder_defaultLengths (by decide) (by decide)⟩

/-! ## Missing sample rate, payload limit below 5 -/

theorem F64.toUint32_mul_zero_right (a b : F64) (hb : b.mant = 0) :
    F64.toUint32 (F64.mul a b) = 0 := by
  unfold F64.mul
  rw [hb]
  simp only [Nat.mul_zero, Nat.zero_mul]
  unfold F64.round
  rw [if_pos (Or.inl rfl)]
  unfold F64.toUint32
  simp

theorem encodeTimestamp_zeroRate {e : Encoder} {it : Nat} (hit : e.InitialTimestamp = some it)
    (hlt : it < 4294967296) (h0 : e.SampleRate = 0) (pts : Int) :
    encodeTimestamp e pts = Except.ok it := by
  rw [encodeTimestamp_ok hit, h0, F64.toUint32_mul_zero_right _ _ (by rw [F64.ofInt_zero]),
    Nat.add_zero, Nat.mod_eq_of_lt hlt]

theorem Encode_nil_eq {e : Encoder} {ts ssrc : Nat} {pts : Int}
    (hts : encodeTimestamp e pts = Except.ok ts) (hs : e.SSRC = some ssrc) :
    Encode e [] pts = Except.ok
      ([{ Version := rtpVersion, PayloadType := e.PayloadType,
          SequenceNumber := e.sequenceNumber, Timestamp := ts, SSRC := ssrc, Marker := true,
          Payload := [0, 0] }], none,
        { e with sequenceNumber := (e.sequenceNumber + 1) % 65536 }) := by
  unfold Encode encodeLoop
  rw [show batchList none = [] from rfl,
    show writeBatch e [] pts = writeAggregated e [] pts from rfl, writeAggregated_nil hts hs]
  rfl

theorem writeBatch_single_nonempty {e : Encoder} (hR : Ready e) (a : Bytes) (pts : Int)
    {w : Ret} (hw : writeBatch e [a] pts = Except.ok w) : w.1 ≠ [] := by
  obtain ⟨hD, ⟨ssrc, hs⟩, ⟨it, hit⟩, h5⟩ := hR
  by_cases hle : e.PayloadMaxSize ≤ blen a
  · rw [writeBatch_fragmented a pts hle] at hw
    obtain ⟨r, hr, -, hlen, -⟩ := writeFragmented_default hD hs hit h5 a pts
    rw [hr] at hw
    cases hw
    intro hnil
    rw [hnil, List.length_nil] at hlen
    have hpos : 0 < blen a / (e.PayloadMaxSize - 4).toNat :=
      Nat.div_pos (by omega) (by omega)
    omega
  · rw [writeBatch_aggregated [a] pts (fun a1 hb => by
      have : a1 = a := by
        injection hb with h1 h2
        exact h1.symm
      subst this
      exact not_le.mp hle)] at hw
    have := (writeAggregated_headers hw).2.2.1
    intro hnil
    rw [hnil] at this
    simp at this

set_option maxRecDepth 100000 in
/-- C13, counterexample: an encoder initialised with `SampleRate` 0 returns, for one access unit
of one byte, one packet and a nil error. -/
theorem Encode_zero_sampleRate_counterexample :
    zeroRateEncoder.SampleRate = 0 ∧
    (Encode zeroRateEncoder [some [1]] 0).map (fun r => (r.1.map (fun p => p.Payload), r.2.1)) =
      Except.ok ([[0, 16, 0, 8, 1]], none) := by
  refine ⟨by decide, by decide⟩

/-- C13, amended: on an encoder initialised with `SampleRate` 0, `Encode` returns no error
value: whenever it returns, the error is nil.  With the default lengths and a payload limit of
at least 5, an empty list or a single access unit gives the packets of its one batch, at least
one, each stamped with `InitialTimestamp`. -/
theorem Encode_zero_sampleRate (e : Encoder) (aus : List Bytes) (pts : Int)
    (hI : Initialised e) (h0 : e.SampleRate = 0) :
    (∀ r, Encode e aus pts = Except.ok r → r.2.1 = none) ∧
    (DefaultLengths e → 5 ≤ e.PayloadMaxSize → aus.length ≤ 1 →
      ∃ pkts e1, Encode e aus pts = Except.ok (pkts, none, e1) ∧ pkts ≠ [] ∧
        ∀ p ∈ pkts, some p.Timestamp = e.InitialTimestamp) := by
  refine ⟨fun r hr => Encode_err_none hr, ?_⟩
  intro hD h5 hlen
  have hR := ready_of_initialised hI hD h5
  obtain ⟨-, -, -, ⟨ssrc, hs, -⟩, -, ⟨it, hit, hlt⟩, -⟩ := hI
  have hts := encodeTimestamp_zeroRate hit hlt h0 pts
  match aus, hlen with
  | [], _ =>
    refine ⟨_, _, Encode_nil_eq hts hs, by simp, ?_⟩
    intro p hp
    rw [List.mem_singleton] at hp
    subst hp
    exact hit.symm
  | [a], _ =>
    obtain ⟨w, hw⟩ := writeBatch_total hR [a] pts
    obtain ⟨hnone, -, ts, hts2, hhd⟩ := writeBatch_headers hw
    have hne := writeBatch_single_nonempty hR a pts hw
    have henc := Encode_single_of_ok hD hw hnone
    obtain ⟨pkts, err, e1⟩ := w
    simp only at hnone
    subst hnone
    refine ⟨pkts, e1, henc, hne, ?_⟩
    intro p hp
    obtain ⟨j, hj⟩ := List.mem_iff_getElem?.mp hp
    rw [(hhd j p hj).2.2.2.1, hit]
    rw [hts] at hts2
    cases hts2
    rfl

set_option maxRecDepth 100000 in
/-- Witness of `Encode_zero_sampleRate` on `zeroRateEncoder` and one access unit. -/
theorem Encode_zero_sampleRate_witness :
    zeroRateEncoder.SampleRate = 0 ∧ DefaultLengths zeroRateEncoder ∧
    5 ≤ zeroRateEncoder.PayloadMaxSize ∧ [some [1]].length ≤ 1 ∧
    ∃ pkts e1, Encode zeroRateEncoder [some [1]] 0 = Except.ok (pkts, none, e1) ∧ pkts ≠ [] ∧
      ∀ p ∈ pkts, some p.Timestamp = zeroRateEncoder.InitialTimestamp :=
  ⟨rfl, ⟨rfl, rfl, rfl⟩, by decide, by decide,
    (Encode_zero_sampleRate zeroRateEncoder [some [1]] 0
      ⟨by decide, by decide, by decide, ⟨_, rfl, by decide⟩, ⟨_, rfl, by decide⟩,
        ⟨_, rfl, by decide⟩, ⟨_, rfl⟩, ⟨_, rfl⟩, ⟨_, rfl⟩⟩ rfl).2
      ⟨rfl, rfl, rfl⟩ (by decide) (by decide)⟩

theorem limitEncoder_initialised (pms : Int) (h : pms ≠ 0) : Initialised (limitEncoder pms) := by
  refine ⟨?_, ?_, ?_, ⟨_, rfl, by decide⟩, ⟨_, rfl, by decide⟩,
    ⟨_, rfl, by decide⟩, ⟨_, rfl⟩, ⟨_, rfl⟩, ⟨_, rfl⟩⟩
  · show (96 : Nat) < 256
    decide
  · show (17645 : Nat) < 65536
    decide
  show (if pms = 0 then (1460 : Int) else pms) ≠ 0
  rw [if_neg h]
  exact h

/-- On an encoder with the default lengths, `Encode` of one access unit not shorter than the
payload limit is `writeFragmented` of that access unit: the limit is not checked. -/
theorem Encode_single_fragmented {e : Encoder} (au : Bytes) (pts : Int) (hD : DefaultLengths e)
    (hlen : e.PayloadMaxSize ≤ blen au) :
    Encode e [au] pts = writeFragmented e au pts := by
  have hlast : encodeLoop [] [] (some [au]) pts e = writeFragmented e au pts := by
    unfold encodeLoop
    rw [show batchList (some [au]) = [au] from rfl, writeBatch_fragmented au pts hlen]
    cases hw : writeFragmented e au pts with
    | error p => rfl
    | ok w =>
      simp only [bind, Except.bind]
      have hnone := (writeFragmented_headers hw).1
      rw [afterWrite_eq hnone]
      obtain ⟨w1, w2, w3⟩ := w
      simp only at hnone
      subst hnone
      simp [pure, Except.pure]
  unfold Encode encodeLoop
  rw [lenAggregated_default hD]
  simp only [bind, Except.bind]
  split
  · exact hlast
  · exact hlast

theorem writeFragmented_limit4 {e : Encoder} (au : Bytes) (pts : Int) (hD : DefaultLengths e)
    (h4 : e.PayloadMaxSize = 4) : writeFragmented e au pts = Except.error Panic.divideByZero := by
  obtain ⟨hs, hi, -⟩ := hD
  unfold writeFragmented
  rw [hs, hi, h4]
  rfl

theorem writeFragmented_limit3 {e : Encoder} (au : Bytes) (pts : Int) (hD : DefaultLengths e)
    (h3 : e.PayloadMaxSize = 3) (hlen : 3 ≤ blen au) :
    writeFragmented e au pts = Except.error Panic.makeNegativeLen := by
  obtain ⟨hs, hi, -⟩ := hD
  unfold writeFragmented
  rw [hs, hi, h3]
  simp only [deref, bind, Except.bind]
  have hm : (3 : Int) - 2 - (13 + 3 : Int).tdiv 8 = -1 := by decide
  rw [hm]
  rw [if_neg (by decide)]
  have hmod : (blen au : Int).tmod (-1) = 0 := by
    rw [Int.tmod_neg, Int.tmod_one]
  have hdiv : (blen au : Int).tdiv (-1) = -(blen au : Int) := by
    rw [Int.tdiv_neg, Int.tdiv_one]
  simp only [hmod, hdiv, lt_self_iff_false, if_false]
  rw [if_pos (by omega)]

set_option maxRecDepth 100000 in
/-- C14, failing inputs: with a payload limit from 1 to 4, the default lengths and an access unit
not shorter than the limit, `Encode` hands the access unit to `writeFragmented` without a check
of the limit.  Under a limit of 4 every such call ends in an integer division by zero
(`auMaxSize` is 0); under a limit of 3 every such call ends in the allocation of a slice of
negative length; under a limit of 2 an access unit of 2 bytes ends in the same fault, and one of
3 bytes comes back as no packet at all with a nil error; under a limit of 1 an access unit of 1
byte comes back as one packet of 5 payload bytes with a nil error.  No call returns an error
value: whenever `Encode` returns, the error is nil. -/
theorem Encode_small_limit_faults :
    (∀ (e : Encoder) (au : Bytes) (pts : Int), Initialised e → DefaultLengths e →
      e.PayloadMaxSize = 4 → e.PayloadMaxSize ≤ blen au →
      Encode e [au] pts = Except.error Panic.divideByZero) ∧
    (∀ (e : Encoder) (au : Bytes) (pts : Int), Initialised e → DefaultLengths e →
      e.PayloadMaxSize = 3 → e.PayloadMaxSize ≤ blen au →
      Encode e [au] pts = Except.error Panic.makeNegativeLen) ∧
    (Initialised (limitEncoder 2) ∧ DefaultLengths (limitEncoder 2) ∧
      (limitEncoder 2).PayloadMaxSize = 2 ∧
      Encode (limitEncoder 2) [some [1, 2]] 0 = Except.error Panic.makeNegativeLen ∧
      (Encode (limitEncoder 2) [some [1, 2, 3]] 0).map
        (fun r => (r.1.map (fun p => p.Payload), r.2.1)) = Except.ok ([], none)) ∧
    (Initialised (limitEncoder 1) ∧ DefaultLengths (limitEncoder 1) ∧
      (limitEncoder 1).PayloadMaxSize = 1 ∧
      (Encode (limitEncoder 1) [some [1]] 0).map
        (fun r => (r.1.map (fun p => p.Payload), r.2.1)) =
          Except.ok ([[0, 16, 0, 8, 1]], none)) ∧
    (∀ (e : Encoder) (aus : List Bytes) (pts : Int) (r : Ret),
      Encode e aus pts = Except.ok r → r.2.1 = none) := by
  refine ⟨?_, ?_, ?_, ?_, ?_⟩
  · intro e au pts _ hD h4 hlen
    rw [Encode_single_fragmented au pts hD hlen]
    exact writeFragmented_limit4 au pts hD h4
  · intro e au pts _ hD h3 hlen
    rw [Encode_single_fragmented au pts hD hlen]
    exact writeFragmented_limit3 au pts hD h3 (by omega)
  · exact ⟨limitEncoder_initialised 2 (by decide), ⟨rfl, rfl, rfl⟩, by decide, by decide,
      by decide⟩
  · exact ⟨limitEncoder_initialised 1 (by decide), ⟨rfl, rfl, rfl⟩, by decide, by decide⟩
  · intro e aus pts r hr
    exact Encode_err_none hr

set_option maxRecDepth 100000 in
/-- Witness of `Encode_small_limit_faults`: a payload limit of 4 with an access unit of 4 bytes,
and a payload limit of 3 with an access unit of 3 bytes. -/
theorem Encode_small_limit_faults_witness :
    Initialised (limitEncoder 4) ∧ DefaultLengths (limitEncoder 4) ∧
    (limitEncoder 4).PayloadMaxSize = 4 ∧
    (limitEncoder 4).PayloadMaxSize ≤ blen (some [1, 2, 3, 4]) ∧
    Encode (limitEncoder 4) [some [1, 2, 3, 4]] 0 = Except.error Panic.divideByZero ∧
    Initialised (limitEncoder 3) ∧ DefaultLengths (limitEncoder 3) ∧
    (limitEncoder 3).PayloadMaxSize = 3 ∧
    (limitEncoder 3).PayloadMaxSize ≤ blen (some [1, 2, 3]) ∧
    Encode (limitEncoder 3) [some [1, 2, 3]] 0 = Except.error Panic.makeNegativeLen :=
  ⟨limitEncoder_initialised 4 (by decide), ⟨rfl, rfl, rfl⟩, by decide, by decide,
    Encode_small_limit_faults.1 (limitEncoder 4) (some [1, 2, 3, 4]) 0
      (limitEncoder_initialised 4 (by decide)) ⟨rfl, rfl, rfl⟩ (by decide) (by decide),
    limitEncoder_initialised 3 (by decide), ⟨rfl, rfl, rfl⟩, by decide, by decide,
    Encode_small_limit_faults.2.1 (limitEncoder 3) (some [1, 2, 3]) 0
      (limitEncoder_initialised 3 (by decide)) ⟨rfl, rfl, rfl⟩ (by decide) (by decide)⟩

/-! ## The projected packet length -/

set_option maxRecDepth 100000 in
/-- C15, failing input: with `SizeLength` 12 and `IndexLength` 3 the AU-header of one access
unit has 15 bits and takes 2 bytes, so a batch of one access unit of 2 bytes needs 2 + 2 + 2 = 6
bytes; `lenAggregated` returns 5, for the batch and for the access unit about to be added alike,
and in the 5 bytes that `writeAggregated` allocates the second header byte (0x20) is overwritten
by the access unit. -/
theorem lenAggregated_rounds_down :
    oddLengthEncoder.SizeLength = some 12 ∧ oddLengthEncoder.IndexLength = some 3 ∧
    oddLengthEncoder.IndexDeltaLength = some 3 ∧
    lenAggregated oddLengthEncoder [some [1, 2]] none = Except.ok 5 ∧
    lenAggregated oddLengthEncoder [] (some [1, 2]) = Except.ok 5 ∧
    specLenAggregated 12 3 3 [2] = 6 ∧
    ((BitWriter.new.writeBits 2 12).writeBits 0 3).close = [0, 32] ∧
    (writeAggregated oddLengthEncoder [some [1, 2]] 0).map
      (fun r => r.1.map (fun p => p.Payload)) = Except.ok [[0, 15, 0, 1, 2]] := by
  refine ⟨rfl, rfl, rfl, by decide, by decide, by decide, by decide, by decide⟩

/-! ## Encode as a sequence of calls of writeBatch -/

theorem sameConfig_refl (e : Encoder) : SameConfig e e := rfl

theorem sameConfig_of_advanced {e e1 e2 : Encoder} {n : Nat} (h1 : SameConfig e e1)
    (h2 : Advanced e1 e2 n) : SameConfig e e2 := by
  unfold SameConfig at *
  obtain ⟨h3, -⟩ := h2
  rw [h3, h1]

theorem lenAggregatedLoop_counter (e : Encoder) (s : Nat) :
    ∀ (aus : List Bytes) (ret : Int) (i : Nat),
      lenAggregatedLoop { e with sequenceNumber := s } aus ret i = lenAggregatedLoop e aus ret i := by
  intro aus
  induction aus with
  | nil =>
    intro ret i
    rfl
  | cons a rest ih =>
    intro ret i
    unfold lenAggregatedLoop
    rw [show auHeaderBytes { e with sequenceNumber := s } i = auHeaderBytes e i from rfl]
    cases auHeaderBytes e i with
    | error p => rfl
    | ok v =>
      simp only [bind, Except.bind]
      exact ih _ _

theorem lenAggregated_sameConfig {e e1 : Encoder} (h : SameConfig e e1) (aus : List Bytes)
    (a : Bytes) : lenAggregated e1 aus a = lenAggregated e aus a := by
  unfold SameConfig at h
  rw [h]
  unfold lenAggregated
  rw [lenAggregatedLoop_counter]
  rfl

theorem batchCalls_sameConfig {e e1 : Encoder} (h : SameConfig e e1) :
    ∀ (aus : List Bytes) (batch : Option (List Bytes)) (pts : Int),
      batchCalls e1 aus batch pts = batchCalls e aus batch pts := by
  have hp : e1.PayloadMaxSize = e.PayloadMaxSize := by
    unfold SameConfig at h
    rw [h]
  have hr : e1.SampleRate = e.SampleRate := by
    unfold SameConfig at h
    rw [h]
  intro aus
  induction aus with
  | nil =>
    intro batch pts
    rfl
  | cons a rest ih =>
    intro batch pts
    unfold batchCalls
    rw [lenAggregated_sameConfig h, hp, hr]
    simp only [ih]

/-- What `Encode` returns is what the calls listed by `batchCalls` return, one after the
other. -/
theorem encodeLoop_calls :
    ∀ (aus : List Bytes) (rets : List Packet) (batch : Option (List Bytes)) (pts : Int)
      (e : Encoder) (r : Ret), encodeLoop aus rets batch pts e = Except.ok r →
      ∃ calls groups, batchCalls e aus batch pts = Except.ok calls ∧
        runCalls calls e = Except.ok (groups, r.2.2) ∧ r.1 = rets ++ groups.flatten := by
  intro aus
  induction aus with
  | nil =>
    intro rets batch pts e r h
    unfold encodeLoop at h
    obtain ⟨w, hw, h⟩ := bind_eq_ok h
    rw [afterWrite_eq (writeBatch_headers hw).1] at h
    cases h
    refine ⟨[(batchList batch, pts)], [w.1], rfl, ?_, by simp⟩
    simp only [runCalls, hw, bind, Except.bind, pure, Except.pure]
  | cons au rest ih =>
    intro rets batch pts e r h
    cases batch with
    | none =>
      unfold encodeLoop at h
      obtain ⟨l, hl, h⟩ := bind_eq_ok h
      unfold batchCalls
      rw [hl]
      simp only [bind, Except.bind]
      by_cases hle : l ≤ e.PayloadMaxSize
      · rw [if_pos hle] at h ⊢
        exact ih _ _ _ _ _ h
      · rw [if_neg hle] at h ⊢
        exact ih _ _ _ _ _ h
    | some b =>
      unfold encodeLoop at h
      obtain ⟨l, hl, h⟩ := bind_eq_ok h
      unfold batchCalls
      rw [hl]
      simp only [bind, Except.bind]
      by_cases hle : l ≤ e.PayloadMaxSize
      · rw [if_pos hle] at h ⊢
        exact ih _ _ _ _ _ h
      · rw [if_neg hle] at h ⊢
        simp only [] at h ⊢
        obtain ⟨w, hw, h⟩ := bind_eq_ok h
        obtain ⟨hnone, hadv, -⟩ := writeBatch_headers hw
        rw [afterWrite_eq hnone] at h
        have hsame : SameConfig e w.2.2 := sameConfig_of_advanced (sameConfig_refl e) hadv
        have hsr : w.2.2.SampleRate = e.SampleRate := by
          unfold SameConfig at hsame
          rw [hsame]
        rw [hsr] at h
        by_cases hne : e.SampleRate = 0
        · rw [if_pos hne] at h
          cases h
        · rw [if_neg hne] at h ⊢
          obtain ⟨calls, groups, hc, hrun, hr⟩ := ih _ _ _ _ _ h
          rw [batchCalls_sameConfig hsame] at hc
          rw [hc]
          refine ⟨(b, pts) :: calls, w.1 :: groups, rfl, ?_, ?_⟩
          · simp only [runCalls, hw, bind, Except.bind, hrun, pure, Except.pure]
          · rw [hr]
            simp

/-! ## The presentation time of each batch -/

theorem wrapInt64_range (x : Int) :
    -9223372036854775808 ≤ wrapInt64 x ∧ wrapInt64 x < 9223372036854775808 := by
  unfold wrapInt64
  omega

theorem wrapInt64_of_range {x : Int} (h1 : -9223372036854775808 ≤ x)
    (h2 : x < 9223372036854775808) : wrapInt64 x = x := by
  unfold wrapInt64
  omega

/-- While nothing overflows, the presentation time advances by the exact quotient. -/
theorem advancePTS_exact {pts sampleRate : Int} {k : Nat} (hsr : 0 < sampleRate)
    (hk : (k : Int) * 1000000000000 < 9223372036854775808)
    (hlo : -9223372036854775808 ≤ pts + (k : Int) * 1000 * 1000000000 / sampleRate)
    (hhi : pts + (k : Int) * 1000 * 1000000000 / sampleRate < 9223372036854775808) :
    advancePTS pts k sampleRate = pts + (k : Int) * 1000 * 1000000000 / sampleRate := by
  unfold advancePTS
  have hk0 : (0 : Int) ≤ (k : Int) := Int.natCast_nonneg k
  rw [wrapInt64_of_range (x := (k : Int) * 1000) (by omega) (by omega),
    wrapInt64_of_range (x := (k : Int) * 1000 * 1000000000) (by omega) (by omega),
    Int.tdiv_eq_ediv (by omega) (by omega)]
  have hq0 : 0 ≤ (k : Int) * 1000 * 1000000000 / sampleRate :=
    Int.ediv_nonneg (by omega) (by omega)
  have hq1 : (k : Int) * 1000 * 1000000000 / sampleRate ≤ (k : Int) * 1000 * 1000000000 :=
    Int.ediv_le_self _ (by omega)
  rw [wrapInt64_of_range (x := (k : Int) * 1000 * 1000000000 / sampleRate) (by omega) (by omega),
    wrapInt64_of_range hlo hhi]

theorem batchCalls_pts {e : Encoder} :
    ∀ (aus : List Bytes) (batch : Option (List Bytes)) (pts : Int)
      (calls : List (List Bytes × Int)), batchCalls e aus batch pts = Except.ok calls →
      (calls.head?).map Prod.snd = some pts ∧
      ∀ i c1 c2, calls[i]? = some c1 → calls[i + 1]? = some c2 →
        c2.2 = advancePTS c1.2 c1.1.length e.SampleRate := by
  intro aus
  induction aus with
  | nil =>
    intro batch pts calls h
    simp only [batchCalls, pure, Except.pure, Except.ok.injEq] at h
    subst h
    refine ⟨rfl, ?_⟩
    intro i c1 c2 _ h2
    simp at h2
  | cons au rest ih =>
    intro batch pts calls h
    cases batch with
    | none =>
      unfold batchCalls at h
      obtain ⟨l, -, h⟩ := bind_eq_ok h
      by_cases hle : l ≤ e.PayloadMaxSize
      · rw [if_pos hle] at h
        exact ih _ _ _ h
      · rw [if_neg hle] at h
        exact ih _ _ _ h
    | some b =>
      unfold batchCalls at h
      obtain ⟨l, -, h⟩ := bind_eq_ok h
      by_cases hle : l ≤ e.PayloadMaxSize
      · rw [if_pos hle] at h
        exact ih _ _ _ h
      · rw [if_neg hle] at h
        simp only [] at h
        by_cases hz : e.SampleRate = 0
        · rw [if_pos hz] at h
          cases h
        rw [if_neg hz] at h
        obtain ⟨tail, htail, h⟩ := bind_eq_ok h
        simp only [pure, Except.pure, Except.ok.injEq] at h
        subst h
        obtain ⟨hhead, hstep⟩ := ih _ _ _ htail
        refine ⟨rfl, ?_⟩
        intro i c1 c2 h1 h2
        cases i with
        | zero =>
          simp only [List.getElem?_cons_zero, Option.some.injEq] at h1
          subst h1
          simp only [zero_add, List.getElem?_cons_succ] at h2
          rw [← List.head?_eq_getElem?] at h2
          rw [h2] at hhead
          simp only [Option.map_some', Option.some.injEq] at hhead
          rw [hhead]
        | succ i =>
          simp only [List.getElem?_cons_succ] at h1 h2
          exact hstep i c1 c2 h1 h2

/-- C16: within one call of `Encode` on an encoder with a positive sample rate, the first batch
is written with the presentation time `firstPTS`, and each later batch with that of the batch
before it advanced by `k * 1000 * 10^9 / SampleRate` nanoseconds, `k` being the number of access
units of the batch before: the new presentation time is `advancePTS`, the result of the
`time.Duration` operations of the source, and it is the exact sum with the quotient rounded down
whenever `k * 10^12` and the sum stay within the 64 bits of a `time.Duration`.  The batches are
listed by `batchCalls`; what `Encode` returns is the packets and the encoder that these calls of
`writeBatch` give. -/
theorem Encode_batch_pts (e : Encoder) (aus : List Bytes) (firstPTS : Int) (r : Ret)
    (hsr : 0 < e.SampleRate) (h : Encode e aus firstPTS = Except.ok r) :
    ∃ calls groups, batchCalls e aus none firstPTS = Except.ok calls ∧
      runCalls calls e = Except.ok (groups, r.2.2) ∧ r.1 = groups.flatten ∧
      (calls.head?).map Prod.snd = some firstPTS ∧
      ∀ i c1 c2, calls[i]? = some c1 → calls[i + 1]? = some c2 →
        c2.2 = advancePTS c1.2 c1.1.length e.SampleRate ∧
        ((c1.1.length : Int) * 1000000000000 < 9223372036854775808 →
          -9223372036854775808 ≤ c1.2 + (c1.1.length : Int) * 1000 * 1000000000 / e.SampleRate →
          c1.2 + (c1.1.length : Int) * 1000 * 1000000000 / e.SampleRate < 9223372036854775808 →
          c2.2 = c1.2 + (c1.1.length : Int) * 1000 * 1000000000 / e.SampleRate) := by
  obtain ⟨calls, groups, hc, hrun, hr⟩ := encodeLoop_calls aus [] none firstPTS e r h
  obtain ⟨h1, h2⟩ := batchCalls_pts aus none firstPTS calls hc
  refine ⟨calls, groups, hc, hrun, by simpa using hr, h1, ?_⟩
  intro i c1 c2 hc1 hc2
  have hstep := h2 i c1 c2 hc1 hc2
  refine ⟨hstep, ?_⟩
  intro hk hlo hhi
  rw [hstep]
  exact advancePTS_exact hsr hk hlo hhi

set_option maxRecDepth 100000 in
/-- Witness of `Encode_batch_pts`: the two batches of `twoUnits` at 1000 Hz are written with the
presentation times 0 and 10^9 ns; from the largest `time.Duration`, `2^63 - 1` ns, the sum wraps
and the second batch is written with a negative presentation time. -/
theorem Encode_batch_pts_witness :
    0 < smallEncoder.SampleRate ∧ Encode smallEncoder twoUnits 0 = Except.ok twoUnitsRet ∧
    batchCalls smallEncoder twoUnits none 0 =
      Except.ok [([some [1]], 0), ([some [2]], 1000000000)] ∧
    batchCalls smallEncoder twoUnits none 9223372036854775807 =
      Except.ok [([some [1]], 9223372036854775807), ([some [2]], -9223372035854775809)] ∧
    (Encode smallEncoder twoUnits 9223372036854775807).map
      (fun r => r.1.map (fun p => p.Timestamp)) = Except.ok [71811403, 212275015] ∧
    ∃ calls groups, batchCalls smallEncoder twoUnits none 0 = Except.ok calls ∧
      runCalls calls smallEncoder = Except.ok (groups, twoUnitsRet.2.2) ∧
      twoUnitsRet.1 = groups.flatten ∧
      (calls.head?).map Prod.snd = some 0 ∧
      ∀ i c1 c2, calls[i]? = some c1 → calls[i + 1]? = some c2 →
        c2.2 = advancePTS c1.2 c1.1.length smallEncoder.SampleRate ∧
        ((c1.1.length : Int) * 1000000000000 < 9223372036854775808 →
          -9223372036854775808 ≤
            c1.2 + (c1.1.length : Int) * 1000 * 1000000000 / smallEncoder.SampleRate →
          c1.2 + (c1.1.length : Int) * 1000 * 1000000000 / smallEncoder.SampleRate
            < 9223372036854775808 →
          c2.2 = c1.2 + (c1.1.length : Int) * 1000 * 1000000000 / smallEncoder.SampleRate) :=
  ⟨by decide, Encode_twoUnits, by decide, by decide, by decide,
    Encode_batch_pts smallEncoder twoUnits 0 twoUnitsRet (by decide) Encode_twoUnits⟩

/-! ## The batches that Encode forms -/

theorem totalLen_append (b c : List Bytes) : totalLen (b ++ c) = totalLen b + totalLen c := by
  induction b with
  | nil => simp [totalLen]
  | cons a rest ih => simp [totalLen, ih]; omega

theorem batchCalls_batches {e : Encoder} (hD : DefaultLengths e) :
    ∀ (aus : List Bytes) (batch : Option (List Bytes)) (pts : Int)
      (calls : List (List Bytes × Int)), (∀ a ∈ aus, a ≠ none) →
      (∀ b, batch = some b → b.length ≤ 1 ∨ Fits e b) →
      batchCalls e aus batch pts = Except.ok calls →
      (calls.map Prod.fst).flatten = batchList batch ++ aus ∧
      ∀ c ∈ calls, c.1.length ≤ 1 ∨ Fits e c.1 := by
  intro aus
  induction aus with
  | nil =>
    intro batch pts calls _ hinv h
    simp only [batchCalls, pure, Except.pure, Except.ok.injEq] at h
    subst h
    refine ⟨by simp, ?_⟩
    intro c hc
    rw [List.mem_singleton] at hc
    subst hc
    cases batch with
    | none => exact Or.inl (by simp [batchList])
    | some b => exact hinv b rfl
  | cons au rest ih =>
    intro batch pts calls hnn hinv h
    have hau : au ≠ none := hnn au (List.mem_cons_self _ _)
    have hrest : ∀ a ∈ rest, a ≠ none := fun a ha => hnn a (List.mem_cons_of_mem _ ha)
    obtain ⟨d, hd⟩ : ∃ d, au = some d := by
      cases au with
      | none => exact absurd rfl hau
      | some d => exact ⟨d, rfl⟩
    have hlen : lenAggregated e (batchList batch) au
        = Except.ok (2 + 2 * ((batchList batch).length : Int) + totalLen (batchList batch)
            + 2 + blen au) := by
      rw [lenAggregated_default hD, hd]
      rfl
    cases batch with
    | none =>
      unfold batchCalls at h
      rw [hlen] at h
      simp only [bind, Except.bind] at h
      have hone : ∀ b, (some [au] : Option (List Bytes)) = some b → b.length ≤ 1 ∨ Fits e b := by
        intro b hb
        cases hb
        exact Or.inl (le_refl _)
      by_cases hle : (2 + 2 * (((batchList none).length : Nat) : Int) + totalLen (batchList none)
          + 2 + blen au) ≤ e.PayloadMaxSize
      · rw [if_pos hle] at h
        obtain ⟨h1, h2⟩ := ih (appendAU none au) pts calls hrest hone h
        exact ⟨by rw [h1]; rfl, h2⟩
      · rw [if_neg hle] at h
        obtain ⟨h1, h2⟩ := ih (some [au]) pts calls hrest hone h
        exact ⟨by rw [h1]; rfl, h2⟩
    | some b =>
      unfold batchCalls at h
      rw [hlen] at h
      simp only [bind, Except.bind] at h
      by_cases hle : (2 + 2 * (((batchList (some b)).length : Nat) : Int)
          + totalLen (batchList (some b)) + 2 + blen au) ≤ e.PayloadMaxSize
      · rw [if_pos hle] at h
        have hfit : ∀ b1, appendAU (some b) au = some b1 → b1.length ≤ 1 ∨ Fits e b1 := by
          intro b1 hb1
          cases hb1
          right
          unfold Fits
          rw [totalLen_append, List.length_append]
          simp only [batchList, totalLen, List.length_singleton] at hle ⊢
          push_cast
          omega
        obtain ⟨h1, h2⟩ := ih (appendAU (some b) au) pts calls hrest hfit h
        refine ⟨?_, h2⟩
        rw [h1]
        simp [appendAU, batchList]
      · rw [if_neg hle] at h
        split at h
        · cases h
        · obtain ⟨tail, htail, h⟩ := bind_eq_ok h
          simp only [pure, Except.pure, Except.ok.injEq] at h
          subst h
          have hone : ∀ b1, (some [au] : Option (List Bytes)) = some b1 →
              b1.length ≤ 1 ∨ Fits e b1 := by
            intro b1 hb1
            cases hb1
            exact Or.inl (le_refl _)
          obtain ⟨h1, h2⟩ := ih (some [au]) _ tail hrest hone htail
          refine ⟨?_, ?_⟩
          · simp only [List.map_cons, List.flatten_cons, h1]
            simp [batchList]
          · intro c hc
            rcases List.mem_cons.mp hc with hc | hc
            · subst hc
              exact hinv b rfl
            · exact h2 c hc

theorem runCalls_pairs :
    ∀ (calls : List (List Bytes × Int)) (e e0 : Encoder) (groups : List (List Packet))
      (e2 : Encoder), SameConfig e0 e → runCalls calls e = Except.ok (groups, e2) →
      List.Forall₂ (fun c g => ∃ e1 w, SameConfig e0 e1 ∧
        writeBatch e1 c.1 c.2 = Except.ok w ∧ w.1 = g) calls groups := by
  intro calls
  induction calls with
  | nil =>
    intro e e0 groups e2 _ h
    simp only [runCalls, pure, Except.pure, Except.ok.injEq, Prod.mk.injEq] at h
    rw [← h.1]
    exact List.Forall₂.nil
  | cons c rest ih =>
    intro e e0 groups e2 hsame h
    unfold runCalls at h
    obtain ⟨w, hw, h⟩ := bind_eq_ok h
    obtain ⟨r, hr, h⟩ := bind_eq_ok h
    simp only [pure, Except.pure, Except.ok.injEq, Prod.mk.injEq] at h
    rw [← h.1]
    have hsame2 : SameConfig e0 w.2.2 := sameConfig_of_advanced hsame (writeBatch_headers hw).2.1
    exact List.Forall₂.cons ⟨e, w, hsame, hw, rfl⟩ (ih _ e0 _ _ hsame2 (by rw [hr]))

theorem forall₂_mem_right {α β : Type} {R : α → β → Prop} :
    ∀ {l1 : List α} {l2 : List β}, List.Forall₂ R l1 l2 → ∀ g ∈ l2, ∃ c ∈ l1, R c g := by
  intro l1 l2 h
  induction h with
  | nil =>
    intro g hg
    simp at hg
  | cons hab _ ih =>
    intro g hg
    rcases List.mem_cons.mp hg with hg | hg
    · subst hg
      exact ⟨_, List.mem_cons_self _ _, hab⟩
    · obtain ⟨c, hc, hR⟩ := ih g hg
      exact ⟨c, List.mem_cons_of_mem _ hc, hR⟩

theorem forall₂_imp_mem {α β : Type} {R S : α → β → Prop} :
    ∀ {l1 : List α} {l2 : List β}, List.Forall₂ R l1 l2 →
      (∀ c ∈ l1, ∀ g, R c g → S c g) → List.Forall₂ S l1 l2 := by
  intro l1 l2 h
  induction h with
  | nil =>
    intro _
    exact List.Forall₂.nil
  | cons hab _ ih =>
    intro himp
    exact List.Forall₂.cons (himp _ (List.mem_cons_self _ _) _ hab)
      (ih (fun c hc g hR => himp c (List.mem_cons_of_mem _ hc) g hR))

theorem ready_of_sameConfig {e e1 : Encoder} (hR : Ready e) (h : SameConfig e e1) :
    Ready e1 ∧ e1.PayloadMaxSize = e.PayloadMaxSize := by
  unfold SameConfig at h
  rw [h]
  exact ⟨hR, rfl⟩

/-! ## Payload size of the packets of a batch -/

theorem aggregated_payload_length (v : Nat) (b : List Bytes) :
    (be16 v ++ auHeadersMod b ++ auData b).length = 2 + 2 * b.length + totalLen b := by
  simp [be16, auHeadersMod_length, auData_length]
  omega

theorem writeBatch_aggregated_payload {e : Encoder} (hR : Ready e) (b : List Bytes) (pts : Int)
    (hagg : ∀ a, b = [a] → (blen a : Int) < e.PayloadMaxSize) {w : Ret}
    (hw : writeBatch e b pts = Except.ok w) :
    ∃ p, w.1 = [p] ∧ p.Marker = true ∧
      p.Payload = be16 (16 * b.length % 65536) ++ auHeadersMod b ++ auData b := by
  obtain ⟨hD, ⟨ssrc, hs⟩, ⟨it, hit⟩, -⟩ := hR
  rw [writeBatch_aggregated b pts hagg,
    writeAggregated_default_mod hD (encodeTimestamp_ok hit pts) hs b] at hw
  cases hw
  exact ⟨_, rfl, rfl, rfl⟩

theorem writeBatch_fragmented_payload_le {e : Encoder} (hR : Ready e) (a : Bytes) (pts : Int)
    (hle : e.PayloadMaxSize ≤ blen a) {w : Ret} (hw : writeBatch e [a] pts = Except.ok w) :
    ∀ p ∈ w.1, (p.Payload.length : Int) ≤ e.PayloadMaxSize := by
  obtain ⟨hD, ⟨ssrc, hs⟩, ⟨it, hit⟩, h5⟩ := hR
  rw [writeBatch_fragmented a pts hle] at hw
  obtain ⟨r, hr, -, -, hp⟩ := writeFragmented_default hD hs hit h5 a pts
  rw [hr] at hw
  cases hw
  intro p hmem
  obtain ⟨j, hj⟩ := List.mem_iff_getElem?.mp hmem
  rw [hp j p hj]
  have hmod : blen a % (e.PayloadMaxSize - 4).toNat < (e.PayloadMaxSize - 4).toNat :=
    Nat.mod_lt _ (by omega)
  simp only [List.length_append, be16, List.length_cons, List.length_nil, List.length_take]
  split_ifs <;> omega

theorem writeBatch_payload_le {e : Encoder} (hR : Ready e) (b : List Bytes) (pts : Int)
    (hb : Fits e b ∨ b = [] ∨ ∃ a, b = [a] ∧ e.PayloadMaxSize ≤ blen a) {w : Ret}
    (hw : writeBatch e b pts = Except.ok w) :
    ∀ p ∈ w.1, (p.Payload.length : Int) ≤ e.PayloadMaxSize := by
  have h5 := hR.2.2.2
  rcases hb with hfit | hnil | ⟨a, hba, hle⟩
  · unfold Fits at hfit
    obtain ⟨p, hp, -, hpay⟩ := writeBatch_aggregated_payload hR b pts (fun a hba => by
      subst hba
      simp only [List.length_singleton, totalLen] at hfit
      push_cast at hfit
      omega) hw
    intro q hq
    rw [hp, List.mem_singleton] at hq
    subst hq
    rw [hpay, aggregated_payload_length]
    push_cast
    omega
  · subst hnil
    obtain ⟨p, hp, -, hpay⟩ := writeBatch_aggregated_payload hR [] pts (fun a hba => by
      cases hba) hw
    intro q hq
    rw [hp, List.mem_singleton] at hq
    subst hq
    rw [hpay, aggregated_payload_length]
    simp only [List.length_nil, totalLen]
    push_cast
    omega
  · subst hba
    exact writeBatch_fragmented_payload_le hR a pts hle hw

/-- C19: on an initialised encoder with the default lengths, a payload limit of at least 5 and a
positive sample rate, and for non-nil access units, `Encode` returns, and what it returns are the
packets of the batches listed by `batchCalls`; the packets of every batch of two or more access
units have a payload within `PayloadMaxSize`; when no access unit has a length `L` with
`PayloadMaxSize - 4 < L < PayloadMaxSize`, every packet returned has. -/
theorem Encode_payload_bound (e : Encoder) (aus : List Bytes) (pts : Int) (hI : Initialised e)
    (hD : DefaultLengths e) (h5 : 5 ≤ e.PayloadMaxSize) (hsr : 0 < e.SampleRate)
    (hnn : ∀ a ∈ aus, a ≠ none) :
    ∃ r calls groups, Encode e aus pts = Except.ok r ∧
      batchCalls e aus none pts = Except.ok calls ∧
      runCalls calls e = Except.ok (groups, r.2.2) ∧ r.1 = groups.flatten ∧
      List.Forall₂ (fun c g => 2 ≤ c.1.length →
        ∀ p ∈ g, (p.Payload.length : Int) ≤ e.PayloadMaxSize) calls groups ∧
      ((∀ a ∈ aus, ¬ (e.PayloadMaxSize - 4 < blen a ∧ (blen a : Int) < e.PayloadMaxSize)) →
        ∀ p ∈ r.1, (p.Payload.length : Int) ≤ e.PayloadMaxSize) := by
  have hR := ready_of_initialised hI hD h5
  obtain ⟨r, hr⟩ := encodeLoop_total aus [] none pts e hR (by omega)
  obtain ⟨calls, groups, hc, hrun, hflat⟩ := encodeLoop_calls aus [] none pts e r hr
  obtain ⟨hcover, hbatch⟩ := batchCalls_batches hD aus none pts calls hnn
    (fun b hb => by cases hb) hc
  have hpairs := runCalls_pairs calls e e groups r.2.2 (sameConfig_refl e) hrun
  refine ⟨r, calls, groups, hr, hc, hrun, by simpa using hflat, ?_, ?_⟩
  · refine forall₂_imp_mem hpairs ?_
    intro c hcm g hRcg h2 p hp
    obtain ⟨e1, w, hsame, hw, hwg⟩ := hRcg
    obtain ⟨hR1, hpms⟩ := ready_of_sameConfig hR hsame
    have hfit : Fits e1 c.1 := by
      rcases hbatch c hcm with h1 | hf
      · omega
      · unfold Fits at hf ⊢
        rw [hpms]
        exact hf
    rw [← hpms]
    subst hwg
    exact writeBatch_payload_le hR1 c.1 c.2 (Or.inl hfit) hw p hp
  · intro hrange p hp
    rw [show r.1 = groups.flatten by simpa using hflat, List.mem_flatten] at hp
    obtain ⟨g, hg, hpg⟩ := hp
    obtain ⟨c, hcm, e1, w, hsame, hw, hwg⟩ := forall₂_mem_right hpairs g hg
    obtain ⟨hR1, hpms⟩ := ready_of_sameConfig hR hsame
    rw [← hpms]
    subst hwg
    refine writeBatch_payload_le hR1 c.1 c.2 ?_ hw p hpg
    rcases hbatch c hcm with h1 | hf
    · -- a batch of at most one access unit
      match hc1 : c.1, h1 with
      | [], _ => exact Or.inr (Or.inl rfl)
      | [a], _ =>
        have hmem : a ∈ aus := by
          have : a ∈ (calls.map Prod.fst).flatten := by
            rw [List.mem_flatten]
            exact ⟨c.1, List.mem_map_of_mem _ hcm, by rw [hc1]; exact List.mem_singleton_self a⟩
          rw [hcover] at this
          simpa [batchList] using this
        have hr1 := hrange a hmem
        by_cases hle : e.PayloadMaxSize ≤ blen a
        · exact Or.inr (Or.inr ⟨a, rfl, by rw [hpms]; exact hle⟩)
        · left
          unfold Fits
          simp only [List.length_singleton, totalLen]
          rw [hpms]
          push_cast
          omega
    · left
      unfold Fits at hf ⊢
      rw [hpms]
      exact hf

set_option maxRecDepth 100000 in
/-- Witness of `Encode_payload_bound` on the two-unit example. -/
theorem Encode_payload_bound_witness :
    Initialised smallEncoder ∧ DefaultLengths smallEncoder ∧ 5 ≤ smallEncoder.PayloadMaxSize ∧
    0 < smallEncoder.SampleRate ∧ (∀ a ∈ twoUnits, a ≠ none) ∧
    ∃ r calls groups, Encode smallEncoder twoUnits 0 = Except.ok r ∧
      batchCalls smallEncoder twoUnits none 0 = Except.ok calls ∧
      runCalls calls smallEncoder = Except.ok (groups, r.2.2) ∧ r.1 = groups.flatten ∧
      List.Forall₂ (fun c g => 2 ≤ c.1.length →
        ∀ p ∈ g, (p.Payload.length : Int) ≤ smallEncoder.PayloadMaxSize) calls groups ∧
      ((∀ a ∈ twoUnits, ¬ (smallEncoder.PayloadMaxSize - 4 < blen a ∧
          (blen a : Int) < smallEncoder.PayloadMaxSize)) →
        ∀ p ∈ r.1, (p.Payload.length : Int) ≤ smallEncoder.PayloadMaxSize) :=
  ⟨smallEncoder_initialised, smallEncoder_defaultLengths, by decide, by decide, by decide,
    Encode_payload_bound smallEncoder twoUnits 0 smallEncoder_initialised
      smallEncoder_defaultLengths (by decide) (by decide) (by decide)⟩

/-! ## Disaggregation -/

theorem readSizes_auHeaders :
    ∀ (b : List Bytes) (data : List Nat), (∀ a ∈ b, blen a < 8192) →
      readSizes b.length (auHeaders b ++ data) = some (b.map blen, data) := by
  intro b
  induction b with
  | nil =>
    intro data _
    rfl
  | cons a rest ih =>
    intro data hlen
    have ha : blen a < 8192 := hlen a (List.mem_cons_self _ _)
    have hrest := ih data (fun x hx => hlen x (List.mem_cons_of_mem _ hx))
    have hval : (blen a * 8 / 256 * 256 + blen a * 8 % 256) / 8 = blen a := by omega
    show readSizes (rest.length + 1)
      (blen a * 8 / 256 :: blen a * 8 % 256 :: (auHeaders rest ++ data)) =
      some (blen a :: rest.map blen, data)
    simp only [readSizes, hrest, hval]

theorem splitBySizes_auData :
    ∀ (b : List Bytes), splitBySizes (b.map blen) (auData b) = some (b.map bdata) := by
  intro b
  induction b with
  | nil => rfl
  | cons a rest ih =>
    simp only [List.map_cons, auData, splitBySizes]
    rw [if_pos (by rw [List.length_append, blen_eq_length]; omega)]
    rw [blen_eq_length, List.drop_left, ih, List.take_left]

theorem disaggregate_aggregated (b : List Bytes) (hlen : ∀ a ∈ b, blen a < 8192) :
    disaggregate (be16 (16 * b.length) ++ auHeaders b ++ auData b) = some (b.map bdata) := by
  have hk2 : (16 * b.length / 256 * 256 + 16 * b.length % 256) / 16 = b.length := by omega
  simp only [be16, List.cons_append, List.nil_append, List.append_assoc, disaggregate, hk2]
  rw [readSizes_auHeaders b _ hlen]
  exact splitBySizes_auData b

theorem blen_le_totalLen {b : List Bytes} {a : Bytes} (h : a ∈ b) : blen a ≤ totalLen b := by
  induction b with
  | nil => simp at h
  | cons x rest ih =>
    rcases List.mem_cons.mp h with h | h
    · subst h
      simp [totalLen]
    · have := ih h
      simp only [totalLen]
      omega

theorem auHeadersMod_eq {b : List Bytes} (h : ∀ a ∈ b, blen a < 8192) :
    auHeadersMod b = auHeaders b := by
  induction b with
  | nil => rfl
  | cons x rest ih =>
    simp only [auHeadersMod, auHeaders]
    rw [ih (fun a ha => h a (List.mem_cons_of_mem _ ha)),
      Nat.mod_eq_of_lt (h x (List.mem_cons_self _ _))]

theorem disaggregateAll_groups :
    ∀ {calls : List (List Bytes × Int)} {groups : List (List Packet)},
      List.Forall₂ (fun c g => ∃ p : Packet, g = [p] ∧
        disaggregate p.Payload = some (c.1.map bdata)) calls groups →
      disaggregateAll (groups.flatten.map (fun p => p.Payload)) =
        some ((calls.map Prod.fst).flatten.map bdata) := by
  intro calls groups h
  induction h with
  | nil => rfl
  | @cons c g calls1 groups1 hab _ ih =>
    obtain ⟨p, hg, hd⟩ := hab
    subst hg
    show disaggregateAll (p.Payload :: groups1.flatten.map (fun p => p.Payload)) =
      some ((c.1 ++ (calls1.map Prod.fst).flatten).map bdata)
    simp only [disaggregateAll, hd, ih, List.map_append]

/-- C17: on an initialised encoder with the default lengths, a payload limit from 5 to 8192 and a
positive sample rate, `Encode` of non-nil access units, each of length at most
`PayloadMaxSize - 4`, returns only aggregated packets (each the one packet of a call of
`writeAggregated`, with Marker set and the aggregated layout), and disaggregating the payloads
in order gives back the access units, in the same order and with the same bytes. -/
theorem Encode_roundtrip (e : Encoder) (aus : List Bytes) (pts : Int) (hI : Initialised e)
    (hD : DefaultLengths e) (h5 : 5 ≤ e.PayloadMaxSize) (h8 : e.PayloadMaxSize ≤ 8192)
    (hsr : 0 < e.SampleRate) (hnn : ∀ a ∈ aus, a ≠ none)
    (hlen : ∀ a ∈ aus, (blen a : Int) ≤ e.PayloadMaxSize - 4) :
    ∃ r, Encode e aus pts = Except.ok r ∧ r.2.1 = none ∧
      (∀ p ∈ r.1, p.Marker = true ∧
        ∃ (e1 : Encoder) (b : List Bytes) (pts1 : Int) (w : Ret),
          writeAggregated e1 b pts1 = Except.ok w ∧ w.1 = [p] ∧
          p.Payload = be16 (16 * b.length) ++ auHeaders b ++ auData b) ∧
      disaggregateAll (r.1.map (fun p => p.Payload)) = some (aus.map bdata) := by
  have hR := ready_of_initialised hI hD h5
  obtain ⟨r, hr⟩ := encodeLoop_total aus [] none pts e hR (by omega)
  obtain ⟨calls, groups, hc, hrun, hflat⟩ := encodeLoop_calls aus [] none pts e r hr
  obtain ⟨hcover, hbatch⟩ := batchCalls_batches hD aus none pts calls hnn
    (fun b hb => by cases hb) hc
  have hflat2 : r.1 = groups.flatten := by simpa using hflat
  have hcover2 : (calls.map Prod.fst).flatten = aus := by simpa [batchList] using hcover
  have hpairs := runCalls_pairs calls e e groups r.2.2 (sameConfig_refl e) hrun
  -- every batch is empty or fits the payload limit
  have hfits : ∀ c ∈ calls, c.1 = [] ∨ Fits e c.1 := by
    intro c hcm
    rcases hbatch c hcm with h1 | hf
    · match hc1 : c.1, h1 with
      | [], _ => exact Or.inl rfl
      | [a], _ =>
        have hmem : a ∈ aus := by
          rw [← hcover2, List.mem_flatten]
          exact ⟨c.1, List.mem_map_of_mem _ hcm, by rw [hc1]; exact List.mem_singleton_self a⟩
        have := hlen a hmem
        right
        unfold Fits
        simp only [List.length_singleton, totalLen]
        push_cast
        omega
    · exact Or.inr hf
  have hfull : List.Forall₂ (fun c g => ∃ p : Packet, g = [p] ∧ p.Marker = true ∧
      (∃ (e1 : Encoder) (w : Ret), writeAggregated e1 c.1 c.2 = Except.ok w ∧ w.1 = [p]) ∧
      p.Payload = be16 (16 * c.1.length) ++ auHeaders c.1 ++ auData c.1 ∧
      disaggregate p.Payload = some (c.1.map bdata)) calls groups := by
    refine forall₂_imp_mem hpairs ?_
    intro c hcm g hRcg
    obtain ⟨e1, w, hsame, hw, hwg⟩ := hRcg
    obtain ⟨hR1, hpms⟩ := ready_of_sameConfig hR hsame
    have hbound : 2 + 2 * (c.1.length : Int) + (totalLen c.1 : Int) ≤ 8192 := by
      rcases hfits c hcm with hnil | hf
      · rw [hnil]
        simp [totalLen]
      · unfold Fits at hf
        omega
    have hagg : ∀ a, c.1 = [a] → (blen a : Int) < e1.PayloadMaxSize := by
      intro a hca
      rcases hfits c hcm with hnil | hf
      · rw [hnil] at hca
        cases hca
      · unfold Fits at hf
        rw [hca] at hf
        simp only [List.length_singleton, totalLen] at hf
        push_cast at hf
        rw [hpms]
        omega
    obtain ⟨p, hp, hmark, hpay⟩ := writeBatch_aggregated_payload hR1 c.1 c.2 hagg hw
    have hsmall : ∀ a ∈ c.1, blen a < 8192 := by
      intro a ha
      have := blen_le_totalLen ha
      omega
    have hk : 16 * c.1.length % 65536 = 16 * c.1.length := Nat.mod_eq_of_lt (by omega)
    rw [hk, auHeadersMod_eq hsmall] at hpay
    refine ⟨p, by rw [← hwg, hp], hmark, ⟨e1, w, ?_, hp⟩, hpay, ?_⟩
    · rw [← writeBatch_aggregated c.1 c.2 hagg]
      exact hw
    · rw [hpay]
      exact disaggregate_aggregated c.1 hsmall
  refine ⟨r, hr, Encode_err_none hr, ?_, ?_⟩
  · intro p hp
    rw [hflat2, List.mem_flatten] at hp
    obtain ⟨g, hg, hpg⟩ := hp
    obtain ⟨c, -, q, hgq, hmark, ⟨e1, w, hw, hwq⟩, hpay, -⟩ := forall₂_mem_right hfull g hg
    rw [hgq, List.mem_singleton] at hpg
    subst hpg
    exact ⟨hmark, e1, c.1, c.2, w, hw, hwq, hpay⟩
  · rw [hflat2, ← hcover2]
    exact disaggregateAll_groups (forall₂_imp_mem hfull
      (fun c _ g hS => by
        obtain ⟨p, hg, -, -, -, hd⟩ := hS
        exact ⟨p, hg, hd⟩))

set_option maxRecDepth 100000 in
/-- Witness of `Encode_roundtrip` on the two-unit example: the two payloads disaggregate to the
two access units. -/
theorem Encode_roundtrip_witness :
    Initialised smallEncoder ∧ DefaultLengths smallEncoder ∧ 5 ≤ smallEncoder.PayloadMaxSize ∧
    smallEncoder.PayloadMaxSize ≤ 8192 ∧ 0 < smallEncoder.SampleRate ∧
    (∀ a ∈ twoUnits, a ≠ none) ∧
    (∀ a ∈ twoUnits, (blen a : Int) ≤ smallEncoder.PayloadMaxSize - 4) ∧
    disaggregateAll (twoUnitsRet.1.map (fun p => p.Payload)) = some [[1], [2]] ∧
    ∃ r, Encode smallEncoder twoUnits 0 = Except.ok r ∧ r.2.1 = none ∧
      (∀ p ∈ r.1, p.Marker = true ∧
        ∃ (e1 : Encoder) (b : List Bytes) (pts1 : Int) (w : Ret),
          writeAggregated e1 b pts1 = Except.ok w ∧ w.1 = [p] ∧
          p.Payload = be16 (16 * b.length) ++ auHeaders b ++ auData b) ∧
      disaggregateAll (r.1.map (fun p => p.Payload)) = some (twoUnits.map bdata) :=
  ⟨smallEncoder_initialised, smallEncoder_defaultLengths, by decide, by decide, by decide,
    by decide, by decide, by decide,
    Encode_roundtrip smallEncoder twoUnits 0 smallEncoder_initialised
      smallEncoder_defaultLengths (by decide) (by decide) (by decide) (by decide) (by decide)⟩

/-! ## The Marker flag of the packets of each batch -/

theorem writeBatch_markerOnLastOnly {e : Encoder} {b : List Bytes} {pts : Int} {w : Ret}
    (hw : writeBatch e b pts = Except.ok w) : MarkerOnLastOnly w.1 := by
  obtain ⟨-, -, ts, -, hhd⟩ := writeBatch_headers hw
  exact fun j p hj => (hhd j p hj).2.2.2.2.1

theorem writeBatch_nonempty {e : Encoder} (hR : Ready e) (b : List Bytes) (pts : Int) {w : Ret}
    (hw : writeBatch e b pts = Except.ok w) : w.1 ≠ [] := by
  by_cases hb : ∃ a, b = [a]
  · obtain ⟨a, ha⟩ := hb
    subst ha
    exact writeBatch_single_nonempty hR a pts hw
  · rw [writeBatch_aggregated b pts (fun a ha => absurd ⟨a, ha⟩ hb)] at hw
    have := (writeAggregated_headers hw).2.2.1
    intro hnil
    rw [hnil] at this
    simp at this

theorem markerOnLastOnly_countP :
    ∀ (g : List Packet), MarkerOnLastOnly g → g ≠ [] → g.countP (fun p => p.Marker) = 1 := by
  intro g
  induction g with
  | nil =>
    intro _ hne
    exact absurd rfl hne
  | cons p rest ih =>
    intro h _
    have hp := h 0 p (List.getElem?_cons_zero ..)
    cases rest with
    | nil =>
      simp only [List.length_singleton, zero_add, decide_True] at hp
      simp [List.countP_cons, hp]
    | cons q rest2 =>
      have htail : MarkerOnLastOnly (q :: rest2) := by
        intro j x hj
        have hx := h (j + 1) x (by simpa using hj)
        rw [hx]
        simp only [List.length_cons]
        congr 1
        apply propext
        omega
      have hcount := ih htail (by simp)
      have hfalse : p.Marker = false := by
        rw [hp]
        simp
      rw [List.countP_cons, hcount, hfalse]
      simp

theorem countP_flatten_ones :
    ∀ (groups : List (List Packet)),
      (∀ g ∈ groups, g.countP (fun p => p.Marker) = 1) →
      groups.flatten.countP (fun p => p.Marker) = groups.length := by
  intro groups
  induction groups with
  | nil =>
    intro _
    rfl
  | cons g rest ih =>
    intro h
    rw [List.flatten_cons, List.countP_append, h g (List.mem_cons_self _ _),
      ih (fun g1 hg1 => h g1 (List.mem_cons_of_mem _ hg1)), List.length_cons]
    omega

/-- The last packet that `Encode` returns has Marker set. -/
theorem Encode_last_marker {e : Encoder} {aus : List Bytes} {pts : Int} {r : Ret}
    (h : Encode e aus pts = Except.ok r) : ∀ p, r.1.getLast? = some p → p.Marker = true := by
  have key := encodeLoop_inv
    (fun rets _ => ∀ p, rets.getLast? = some p → p.Marker = true)
    (by
      intro rets e1 b pts1 w hlast hw
      have hm := writeBatch_markerOnLastOnly hw
      intro p hp
      rw [List.getLast?_append] at hp
      cases hw1 : w.1.getLast? with
      | none =>
        rw [hw1] at hp
        exact hlast p hp
      | some q =>
        rw [hw1] at hp
        simp only [Option.or_some, Option.some.injEq] at hp
        subst hp
        rw [List.getLast?_eq_getElem?] at hw1
        have hne : w.1.length ≠ 0 := by
          intro h0
          rw [List.length_eq_zero] at h0
          rw [h0] at hw1
          simp at hw1
        rw [hm _ _ hw1]
        simp only [decide_eq_true_eq]
        omega)
    aus [] none pts e r h (by simp)
  exact key.1

set_option maxRecDepth 100000 in
theorem Encode_mixedUnits : Encode smallEncoder mixedUnits 0 = Except.ok mixedRet := by decide

/-- C3, amended: the packets that `Encode` returns are, in order, the packets of the batches it
wrote, the calls of `writeBatch` listed by `batchCalls`, one group of packets for each call;
within the group of a batch the last packet has Marker set and no other has (an aggregated
packet has it, of the fragments of an access unit only the last); so the last packet returned
has Marker set.  On an initialised encoder with the default lengths and a payload limit of at
least 5 every batch gives at least one packet, and the number of packets returned with Marker
set is the number of batches. -/
theorem Encode_marker_per_batch (e : Encoder) (aus : List Bytes) (pts : Int) (r : Ret)
    (h : Encode e aus pts = Except.ok r) :
    ∃ calls groups, batchCalls e aus none pts = Except.ok calls ∧
      runCalls calls e = Except.ok (groups, r.2.2) ∧ r.1 = groups.flatten ∧
      groups.length = calls.length ∧
      (∀ g ∈ groups, MarkerOnLastOnly g) ∧
      (∀ p, r.1.getLast? = some p → p.Marker = true) ∧
      (Initialised e → DefaultLengths e → 5 ≤ e.PayloadMaxSize →
        (∀ g ∈ groups, g ≠ []) ∧ r.1.countP (fun p => p.Marker) = calls.length) := by
  obtain ⟨calls, groups, hc, hrun, hflat⟩ := encodeLoop_calls aus [] none pts e r h
  have hflat2 : r.1 = groups.flatten := by simpa using hflat
  have hpairs := runCalls_pairs calls e e groups r.2.2 (sameConfig_refl e) hrun
  have hlen : groups.length = calls.length := hpairs.length_eq.symm
  have hmark : ∀ g ∈ groups, MarkerOnLastOnly g := by
    intro g hg
    obtain ⟨c, -, e1, w, -, hw, hwg⟩ := forall₂_mem_right hpairs g hg
    subst hwg
    exact writeBatch_markerOnLastOnly hw
  refine ⟨calls, groups, hc, hrun, hflat2, hlen, hmark, Encode_last_marker h, ?_⟩
  intro hI hD h5
  have hR := ready_of_initialised hI hD h5
  have hne : ∀ g ∈ groups, g ≠ [] := by
    intro g hg
    obtain ⟨c, -, e1, w, hsame, hw, hwg⟩ := forall₂_mem_right hpairs g hg
    subst hwg
    exact writeBatch_nonempty (ready_of_sameConfig hR hsame).1 c.1 c.2 hw
  refine ⟨hne, ?_⟩
  rw [hflat2, countP_flatten_ones groups
    (fun g hg => markerOnLastOnly_countP g (hmark g hg) (hne g hg)), hlen]

set_option maxRecDepth 100000 in
/-- Witness of `Encode_marker_per_batch`: an access unit of 5 bytes followed by one of 1 byte,
under a payload limit of 5, gives two batches, five fragments of which only the last is marked
and one aggregated packet, which is marked. -/
theorem Encode_marker_per_batch_witness :
    Encode smallEncoder mixedUnits 0 = Except.ok mixedRet ∧
    mixedRet.1.map (fun p => p.Marker) = [false, false, false, false, true, true] ∧
    Initialised smallEncoder ∧ DefaultLengths smallEncoder ∧ 5 ≤ smallEncoder.PayloadMaxSize ∧
    ∃ calls groups, batchCalls smallEncoder mixedUnits none 0 = Except.ok calls ∧
      runCalls calls smallEncoder = Except.ok (groups, mixedRet.2.2) ∧
      mixedRet.1 = groups.flatten ∧ groups.length = calls.length ∧
      (∀ g ∈ groups, MarkerOnLastOnly g) ∧
      (∀ p, mixedRet.1.getLast? = some p → p.Marker = true) ∧
      (Initialised smallEncoder → DefaultLengths smallEncoder →
        5 ≤ smallEncoder.PayloadMaxSize →
        (∀ g ∈ groups, g ≠ []) ∧ mixedRet.1.countP (fun p => p.Marker) = calls.length) :=
  ⟨Encode_mixedUnits, by decide, smallEncoder_initialised, smallEncoder_defaultLengths,
    by decide,
    Encode_marker_per_batch smallEncoder mixedUnits 0 mixedRet Encode_mixedUnits⟩

end rtpaac
